import Mathlib

/-!
# rgss_script_editor: the main window (`src/qt/main_window.cxx`)

A shallow embedding of `RGSS_MainWindow`: the window's members become a record, every
slot becomes a function on that record, and the outside world (file system, dialogs,
codecs) is an explicit environment.  A slot returns `none` where the C++ code dereferences
a null pointer or indexes a vector out of range; `Q_ASSERT` lines are release-build no-ops
and are stated as separate predicates.

Qt classes (`QListWidget`, `QHash`, `QFileInfo`, `QTextStream`) are library code and are
modelled from their documented behaviour.  `ScriptArchive` is implemented in another file
of the repository; its operations are modelled from the specification.
-/

namespace RGSS

/-! ## Basic types -/

/-- Text as held by `QString`. -/
abbrev QString := String

/-- Raw bytes as held by `QByteArray`. -/
abbrev QByteArray := List Nat

/-- The two on-disk generations, `ScriptArchive::Format`. -/
inductive Format where
  | XP
  | VXAce
  deriving DecidableEq, Repr

/-- One entry of the archive, `ScriptArchive::Script`. -/
structure Script where
  magic : Int
  name : QString
  data : QString
  id : Int
  deriving DecidableEq, Repr

/-- Modelled from the spec: the class `ScriptArchive`, whose implementation is in another
file.  The ordered entry list, the format tag recorded by `read`, and the source of fresh
ids. -/
structure ScriptArchive where
  scripts : List Script
  format : Format
  id_counter : Int
  deriving DecidableEq, Repr

/-- Sequential ids `start, start+1, ...` in list order. -/
def renumber : Int → List Script → List Script
  | _, [] => []
  | start, s :: rest => { s with id := start } :: renumber (start + 1) rest

/-- Modelled from the spec: `ScriptArchive::rehashIDs`, "reassigns ids sequentially
(0..length-1) to the current order, discarding all previous id history". -/
def ScriptArchive.rehashIDs (a : ScriptArchive) : ScriptArchive :=
  { a with scripts := renumber 0 a.scripts, id_counter := a.scripts.length }

/-- The position `index` clamped to `[0, length]`. -/
def clampIndex (index : Int) (length : Nat) : Nat :=
  (max 0 (min index length)).toNat

/-- Modelled from the spec: `ScriptArchive::insertScript`, "inserts a new entry with empty
name, empty data, magic = 0, and a freshly minted id ... at position index (clamped to
[0, length])".  Returns the new id. -/
def ScriptArchive.insertScript (a : ScriptArchive) (index : Int) : Int × ScriptArchive :=
  let i := clampIndex index a.scripts.length
  let fresh : Script := { magic := 0, name := "", data := "", id := a.id_counter }
  (a.id_counter,
    { a with scripts := a.scripts.take i ++ fresh :: a.scripts.drop i,
             id_counter := a.id_counter + 1 })

/-- Modelled from the spec: `ScriptArchive::deleteScript`, "requires 0 <= index < length;
removes the entry at index".  The only caller has already indexed `scripts[index]`. -/
def ScriptArchive.deleteScript (a : ScriptArchive) (index : Nat) : ScriptArchive :=
  { a with scripts := a.scripts.eraseIdx index }

/-- Position of the first entry carrying `id`. -/
def findID (id : Int) : List Script → Option Nat
  | [] => none
  | s :: rest => if s.id = id then some 0 else (findID id rest).map (· + 1)

/-- Modelled from the spec: `ScriptArchive::getScriptForID`, "locates an entry by stable
id", `reference | not-found`.  The reference is the entry's position. -/
def ScriptArchive.getScriptForID (a : ScriptArchive) (id : Int) : Option Nat :=
  findID id a.scripts

/-- Assignment through the reference returned by `getScriptForID`: `script->data = text`. -/
def setDataAt (text : QString) : Nat → List Script → List Script
  | _, [] => []
  | 0, s :: rest => { s with data := text } :: rest
  | i + 1, s :: rest => s :: setDataAt text i rest

/-- Assignment `scripts[row].name = name`. -/
def setNameAt (name : QString) : Nat → List Script → List Script
  | _, [] => []
  | 0, s :: rest => { s with name := name } :: rest
  | i + 1, s :: rest => s :: setNameAt name i rest

/-- Entries built from `(magic, name, data)` triples with the given ids. -/
def scriptsOfTriples : Int → List (Int × QString × QString) → List Script
  | _, [] => []
  | start, t :: rest =>
    { magic := t.1, name := t.2.1, data := t.2.2, id := start } ::
      scriptsOfTriples (start + 1) rest

/-- Modelled from the spec: the result of a successful `ScriptArchive::read`, which "assigns
each resulting entry a fresh sequential id starting at 0 in file order ... and records the
detected/selected format". -/
def ScriptArchive.readResult (format : Format) (triples : List (Int × QString × QString)) :
    ScriptArchive :=
  { scripts := scriptsOfTriples 0 triples, format := format, id_counter := triples.length }

/-! ## Qt library models -/

/-- A `QsciScintilla` editor widget: its text and its modification flag. -/
structure EditorWidget where
  text : QString
  modified : Bool
  deriving DecidableEq, Repr

/-- `QsciScintilla::setText`: replaces the text and empties the undo buffer, which also
sets the save point, so the widget reports itself unmodified. -/
def EditorWidget.setText (_e : EditorWidget) (text : QString) : EditorWidget :=
  { text := text, modified := false }

/-- `QsciScintilla::setModified`. -/
def EditorWidget.setModified (e : EditorWidget) (m : Bool) : EditorWidget :=
  { e with modified := m }

/-- `QHash<int, V>` without multi-insertion: a list of bindings with pairwise distinct
keys.  The order of `entries` is the iteration order. -/
structure QHash (V : Type) where
  entries : List (Int × V)
  nodup : (entries.map Prod.fst).Nodup

/-- Keys of a hash. -/
def QHash.keys {V : Type} (h : QHash V) : List Int := h.entries.map Prod.fst

/-- Lookup in a binding list. -/
def lookupKey {V : Type} (k : Int) : List (Int × V) → Option V
  | [] => none
  | e :: rest => if e.1 = k then some e.2 else lookupKey k rest

/-- `QHash::value` as an option: `none` stands for the default-constructed value (a null
pointer for pointer values). -/
def QHash.value {V : Type} (h : QHash V) (k : Int) : Option V := lookupKey k h.entries

/-- `QHash::contains`. -/
def QHash.contains {V : Type} (h : QHash V) (k : Int) : Bool := (h.value k).isSome

/-- `QHash::clear` and the default constructor. -/
def QHash.empty {V : Type} : QHash V := ⟨[], List.nodup_nil⟩

/-- `QHash::remove`. -/
def QHash.remove {V : Type} (h : QHash V) (k : Int) : QHash V :=
  ⟨h.entries.filter (fun e => decide (e.1 ≠ k)),
    h.nodup.sublist ((List.filter_sublist h.entries).map Prod.fst)⟩

/-- `QHash::insert`: a binding for an existing key is replaced. -/
def QHash.insert {V : Type} (h : QHash V) (k : Int) (v : V) : QHash V :=
  ⟨(k, v) :: (h.remove k).entries, by
    have hn := (h.remove k).nodup
    simp only [List.map_cons, List.nodup_cons]
    refine ⟨?_, hn⟩
    simp [QHash.remove, List.mem_map, List.mem_filter]⟩

instance {V : Type} [DecidableEq V] : DecidableEq (QHash V) := fun a b =>
  decidable_of_iff (a.entries = b.entries) (by
    cases a; cases b; simp)

/-- The list widget `QListWidget` in single-selection mode: the item labels and
`currentRow()`, which is `-1` when there is no current item. -/
structure QListWidget where
  items : List QString
  current : Int
  deriving DecidableEq, Repr

/-- `QListWidget::addItem`: appends; the current item does not change. -/
def QListWidget.addItem (l : QListWidget) (label : QString) : QListWidget :=
  { l with items := l.items ++ [label] }

/-- `QListWidget::insertItem`: the row is clamped to `[0, count]`; a current item at or
below the insertion point moves down with its item and no signal is emitted. -/
def QListWidget.insertItem (l : QListWidget) (row : Int) (label : QString) : QListWidget :=
  let r := clampIndex row l.items.length
  { items := l.items.take r ++ label :: l.items.drop r,
    current := if 0 ≤ l.current ∧ (r : Int) ≤ l.current then l.current + 1 else l.current }

/-- `QListWidget::setCurrentRow`: the new current row (`-1` for a row out of range) and the
argument of `currentRowChanged`, emitted only when the current item changes. -/
def QListWidget.setCurrentRow (l : QListWidget) (row : Int) : QListWidget × Option Int :=
  let r : Int := if 0 ≤ row ∧ row < l.items.length then row else -1
  if r = l.current then (l, none) else ({ l with current := r }, some r)

/-- `QListWidget::clear`: clears the selection model first, which emits
`currentRowChanged(-1)` when there was a current item, then drops all items. -/
def QListWidget.clear (l : QListWidget) : QListWidget × Option Int :=
  ({ items := [], current := -1 }, if l.current = -1 then none else some (-1))

/-- `QListWidget::takeItem`.  When the removed row is the current one the view picks the
new current item before the row leaves the model and reports its row in the numbering
before the removal: the next row if there is one, else the previous row, else `-1`.
Afterwards `currentRow()` is the position of that item in the shortened list. -/
def QListWidget.takeItem (l : QListWidget) (row : Int) : QListWidget × Option Int :=
  if 0 ≤ row ∧ row < l.items.length then
    let items := l.items.eraseIdx row.toNat
    if l.current = row then
      if row + 1 < l.items.length then
        ({ items := items, current := row }, some (row + 1))
      else if 0 < row then
        ({ items := items, current := row - 1 }, some (row - 1))
      else
        ({ items := items, current := -1 }, some (-1))
    else if row < l.current then
      ({ items := items, current := l.current - 1 }, none)
    else
      ({ items := items, current := l.current }, none)
  else (l, none)

/-- `currentItem()->setText(name)`: `none` when there is no current item. -/
def QListWidget.setCurrentText (l : QListWidget) (name : QString) : Option QListWidget :=
  if 0 ≤ l.current ∧ l.current < l.items.length then
    some { l with items := l.items.set l.current.toNat name }
  else none

/-- Characters after the last occurrence of `c`, if `c` occurs. -/
def afterLast (c : Char) : List Char → Option (List Char)
  | [] => none
  | x :: xs =>
    match afterLast c xs with
    | some r => some r
    | none => if x = c then some xs else none

/-- `QFileInfo::fileName`: the path without its directory part. -/
def fileName (file : QString) : List Char :=
  match afterLast '/' file.data with
  | some r => r
  | none => file.data

/-- `QFileInfo::suffix`: "all characters in the file after (but not including) the last
'.'", empty when the file name has no dot. -/
def suffix (file : QString) : QString :=
  match afterLast '.' (fileName file) with
  | some r => String.mk r
  | none => ""

/-- `QString("%1").arg(i, 3, 10, QLatin1Char('0'))`: decimal digits, padded on the left
with zeros to a field width of at least 3. -/
def scFilename (i : Nat) : QString :=
  String.mk (List.replicate (3 - (toString i).length) '0') ++ toString i

/-- Drops one trailing carriage return. -/
def stripCR (line : List Char) : List Char :=
  if line.getLast? = some '\r' then line.dropLast else line

/-- The lines of a text as the loop `while (!stream.atEnd()) stream.readLine()` yields
them: lines end at a line feed, a carriage return in front of the terminator (or at the
end of the text) is not part of the line, and nothing follows the last terminator. -/
def readLinesAux (acc : List Char) : List Char → List QString
  | [] => if acc = [] then [] else [String.mk (stripCR acc)]
  | c :: cs =>
    if c = '\n' then String.mk (stripCR acc) :: readLinesAux [] cs
    else readLinesAux (acc ++ [c]) cs

/-- Lines of a text file read through `QTextStream`. -/
def readLines (text : QString) : List QString := readLinesAux [] text.data

/-! ## The outside world -/

/-- Result of `SaveDiscardDialog::exec()`; `Other` is any value that reaches `default:`. -/
inductive DialogResult where
  | Save
  | Discard
  | Cancel
  | Other
  deriving DecidableEq, Repr

/-- What one slot invocation gets from outside the window: the file system, the codecs,
the outcomes of `ScriptArchive::read` and `ScriptArchive::write`, and the user's dialog
answers. -/
structure Env where
  /-- `QFileInfo::absoluteFilePath`. -/
  absoluteFilePath : QString → QString
  /-- `QFileInfo::absolutePath`. -/
  absolutePath : QString → QString
  /-- `QFile::open(QFile::ReadOnly)` followed by reading everything; `none` when the file
  cannot be opened. -/
  openRead : QString → Option QByteArray
  /-- Whether `QFile::open(QFile::WriteOnly)` succeeds. -/
  openWrite : QString → Bool
  /-- `ScriptArchive::read`: the format and the `(magic, name, data)` triples, or the
  thrown error text. -/
  archiveRead : QByteArray → Except QString (Format × List (Int × QString × QString))
  /-- `ScriptArchive::write`: `false` when it throws. -/
  archiveWrite : Format → ScriptArchive → Bool
  /-- `QString::toUtf8`. -/
  toUtf8 : QString → QByteArray
  /-- Conversion `QString(const QByteArray &)`. -/
  fromByteArray : QByteArray → QString
  /-- Decoding done by a reading `QTextStream`. -/
  decodeText : QByteArray → QString
  /-- Answer given to the save/discard dialog. -/
  saveDiscard : DialogResult
  /-- `QFileDialog::getOpenFileName`; `none` is the null string of a cancelled dialog. -/
  openFileName : Option QString
  /-- `QFileDialog::getSaveFileName`. -/
  saveFileName : Option QString
  /-- `QFileDialog::getExistingDirectory`; empty when cancelled. -/
  existingDirectory : QString

/-- Effects that leave the window. -/
inductive Event where
  /-- `QMessageBox::critical(this, title, text)`. -/
  | critical (title text : QString)
  /-- A successful `QFile::open(QFile::WriteOnly)`. -/
  | opened (path : QString)
  /-- The call `archive_.write(archiveFile, format)`. -/
  | archiveWrite (path : QString) (format : Format) (archive : ScriptArchive)
  /-- Bytes written to a data file by `scFile.write`. -/
  | dataWritten (path : QString) (bytes : QByteArray)
  /-- Text sent through the index stream, on disk once `indFile.close()` has run. -/
  | textWritten (path : QString) (text : QString)
  deriving DecidableEq, Repr

/-! ## The window -/

/-- State of `RGSS_MainWindow`.  Menus, splitter, window title, the name line edit and the
editor stack only present this state and are left out; `editing_enabled` is the flag set
by `enableEditing`, and `log` collects the effects on the outside world.  An editor widget
is owned either by one binding of `editor_hash` or by `recycled_editors`, so the widgets
are held by value; a `none` in `recycled_editors` is a null pointer. -/
structure RGSS_MainWindow where
  archive_ : ScriptArchive
  editor_hash : QHash EditorWidget
  recycled_editors : List (Option EditorWidget)
  script_list_ : QListWidget
  editing_enabled : Bool
  current_row_ : Int
  data_modified_ : Bool
  archive_opened : Bool
  open_path : QString
  last_valid_folder : QString
  last_valid_folder_impexp : QString
  log : List Event
  deriving DecidableEq

namespace RGSS_MainWindow

/-- `QMessageBox::critical`. -/
def critical (w : RGSS_MainWindow) (title text : QString) : RGSS_MainWindow :=
  { w with log := w.log ++ [Event.critical title text] }

/-- `RGSS_MainWindow::setDataModified` (the title update is presentation). -/
def setDataModified (w : RGSS_MainWindow) (m : Bool) : RGSS_MainWindow :=
  { w with data_modified_ := m }

/-- `RGSS_MainWindow::onScriptEditorModified`. -/
def onScriptEditorModified (w : RGSS_MainWindow) : RGSS_MainWindow :=
  w.setDataModified true

/-- `RGSS_MainWindow::enableEditing`. -/
def enableEditing (w : RGSS_MainWindow) (v : Bool) : RGSS_MainWindow :=
  { w with editing_enabled := v }

/-- The element `scripts[idx]`; `none` when `idx` is out of range. -/
def scriptAt (scripts : List Script) (idx : Int) : Option Script :=
  if 0 ≤ idx then scripts[idx.toNat]? else none

/-- `RGSS_MainWindow::getEditorForScript`: the editor bound to the script's id, else a
recycled or new widget loaded with the script's data.  `none` when the recycled widget is
a null pointer (`editor->setText`).  The `connect` of `textChanged` is not part of the
state: the signal is an event of its own (`editText`, `Step.editorModified`). -/
def getEditorForScript (w : RGSS_MainWindow) (script : Script) : Option RGSS_MainWindow :=
  if w.editor_hash.contains script.id then some w
  else
    match w.recycled_editors.getLast? with
    | some none => none
    | some (some editor) =>
      some { w with recycled_editors := w.recycled_editors.dropLast,
                    editor_hash := w.editor_hash.insert script.id (editor.setText script.data) }
    | none =>
      let editor : EditorWidget := { text := "", modified := false }
      some { w with editor_hash := w.editor_hash.insert script.id (editor.setText script.data) }

/-- The loop of `storeChangedScripts` over the bindings of `editor_hash`: a modified editor
has its text stored in the script found by `getScriptForID` and is marked unmodified.
`none` when no script is found (`Q_ASSERT(script)` fails, `script->data` is a null
dereference).  The keys of the bindings stay as they are. -/
def storeLoop (archive : ScriptArchive) : (es : List (Int × EditorWidget)) →
    Option (ScriptArchive ×
      { out : List (Int × EditorWidget) // out.map Prod.fst = es.map Prod.fst })
  | [] => some (archive, ⟨[], rfl⟩)
  | (key, editor) :: rest =>
    if editor.modified then
      match archive.getScriptForID key with
      | none => none
      | some p =>
        match storeLoop { archive with scripts := setDataAt editor.text p archive.scripts }
            rest with
        | none => none
        | some (a, out) =>
          some (a, ⟨(key, editor.setModified false) :: out.1, by simp [out.2]⟩)
    else
      match storeLoop archive rest with
      | none => none
      | some (a, out) => some (a, ⟨(key, editor) :: out.1, by simp [out.2]⟩)

/-- `RGSS_MainWindow::storeChangedScripts`. -/
def storeChangedScripts (w : RGSS_MainWindow) : Option RGSS_MainWindow :=
  match storeLoop w.archive_ w.editor_hash.entries with
  | none => none
  | some (a, out) =>
    some { w with archive_ := a,
                  editor_hash := ⟨out.1, by rw [out.2]; exact w.editor_hash.nodup⟩ }

/-- `RGSS_MainWindow::saveScriptArchiveAs`. -/
def saveScriptArchiveAs (env : Env) (file : QString) (w : RGSS_MainWindow) :
    Option (Bool × RGSS_MainWindow) :=
  let fileExt := suffix file
  let format : Option Format :=
    if fileExt = "rxdata" then some Format.XP
    else if fileExt = "rvdata" then some Format.XP
    else if fileExt = "rvdata2" then some Format.VXAce
    else none
  match format with
  | none =>
    some (false, w.critical "File saving error." ("Unrecognized file extension: " ++ fileExt))
  | some format =>
    if env.openWrite file then
      match storeChangedScripts { w with log := w.log ++ [Event.opened file] } with
      | none => none
      | some w1 =>
        let w2 := { w1 with log := w1.log ++ [Event.archiveWrite file format w1.archive_] }
        if env.archiveWrite format w1.archive_ then
          some (true,
            ({ w2 with open_path := env.absoluteFilePath file,
                       last_valid_folder := env.absolutePath file }).setDataModified false)
        else
          some (false, w2.critical "File saving error." ("Cannot save: " ++ file))
    else
      some (false, w.critical "File saving error." ("Cannot open for writing: " ++ file))

/-- `RGSS_MainWindow::verifySaveDiscard`. -/
def verifySaveDiscard (env : Env) (w : RGSS_MainWindow) : Option (Bool × RGSS_MainWindow) :=
  if w.data_modified_ then
    match env.saveDiscard with
    | DialogResult.Save => saveScriptArchiveAs env w.open_path w
    | DialogResult.Discard => some (true, w)
    | DialogResult.Cancel => some (false, w)
    | DialogResult.Other => some (false, w)
  else some (true, w)

/-- `RGSS_MainWindow::onScriptIndexChange`, the slot of `currentRowChanged`.  `none` when
`archive_.scripts[idx]` is out of range; the two `Q_ASSERT`s are no-ops. -/
def onScriptIndexChange (w : RGSS_MainWindow) (idx : Int) : Option RGSS_MainWindow :=
  if idx = -1 then some { w with current_row_ := -1 }
  else
    match scriptAt w.archive_.scripts idx with
    | none => none
    | some script =>
      match getEditorForScript w script with
      | none => none
      | some w1 => some { w1 with current_row_ := idx }

/-- Delivery of `currentRowChanged` when the list widget emitted it. -/
def currentRowChanged (w : RGSS_MainWindow) : Option Int → Option RGSS_MainWindow
  | none => some w
  | some idx => onScriptIndexChange w idx

/-- `RGSS_MainWindow::closeScriptArchive`. -/
def closeScriptArchive (w : RGSS_MainWindow) : Option RGSS_MainWindow :=
  let w1 : RGSS_MainWindow :=
    { w with recycled_editors :=
               w.recycled_editors ++ w.editor_hash.entries.map (fun e => some e.2),
             editor_hash := QHash.empty,
             open_path := "",
             archive_ := { w.archive_ with scripts := [] } }
  match onScriptIndexChange w1 (-1) with
  | none => none
  | some w2 =>
    let cleared := w2.script_list_.clear
    match currentRowChanged { w2 with script_list_ := cleared.1 } cleared.2 with
    | none => none
    | some w3 => some (({ w3.enableEditing false with archive_opened := false }).setDataModified false)

/-- `RGSS_MainWindow::setupLoadedArchive`. -/
def setupLoadedArchive (w : RGSS_MainWindow) : Option RGSS_MainWindow :=
  let next_row : Int := max (min w.current_row_ ((w.archive_.scripts.length : Int) - 1)) 0
  let cleared := w.script_list_.clear
  match currentRowChanged { w with script_list_ := cleared.1 } cleared.2 with
  | none => none
  | some w1 =>
    let filled := w1.archive_.scripts.foldl (fun l s => l.addItem s.name) w1.script_list_
    let selected := filled.setCurrentRow next_row
    match currentRowChanged { w1 with script_list_ := selected.1 } selected.2 with
    | none => none
    | some w2 => some ({ w2 with archive_opened := true }.enableEditing true)

/-- `RGSS_MainWindow::loadScriptArchive`.  A `read` that throws is taken to leave the
archive as it was ("no partial archive is returned"). -/
def loadScriptArchive (env : Env) (file : QString) (show_errors : Bool) (w : RGSS_MainWindow) :
    Option RGSS_MainWindow :=
  match env.openRead file with
  | none =>
    some (if show_errors then w.critical "File reading error." ("Cannot open file: " ++ file)
      else w)
  | some bytes =>
    match env.archiveRead bytes with
    | Except.error error =>
      some (if show_errors then
        w.critical "File reading error." ("Cannot read: " ++ file ++ "\n" ++ error) else w)
    | Except.ok (format, triples) =>
      let w1 : RGSS_MainWindow :=
        { w with archive_ := ScriptArchive.readResult format triples,
                 open_path := env.absoluteFilePath file,
                 last_valid_folder := env.absolutePath file }
      match setupLoadedArchive w1 with
      | none => none
      | some w2 => some (w2.setDataModified false)

/-- The window as the constructor leaves it before it loads anything: `current_row_(0)`,
`data_modified_(false)`, `enableEditing(false)`.  The constructor does not initialise
`archive_opened`, and the two folders come from the settings. -/
def constructed (archive_opened : Bool) (last_valid_folder last_valid_folder_impexp : QString) :
    RGSS_MainWindow :=
  { archive_ := { scripts := [], format := Format.XP, id_counter := 0 },
    editor_hash := QHash.empty,
    recycled_editors := [],
    script_list_ := { items := [], current := -1 },
    editing_enabled := false,
    current_row_ := 0,
    data_modified_ := false,
    archive_opened := archive_opened,
    open_path := "",
    last_valid_folder := last_valid_folder,
    last_valid_folder_impexp := last_valid_folder_impexp,
    log := [] }

/-- The end of the constructor: `path_to_load` is loaded when given, else the path
remembered in the settings, silently. -/
def construct (env : Env) (path_to_load last_open_path : QString) (w : RGSS_MainWindow) :
    Option RGSS_MainWindow :=
  if path_to_load ≠ "" then loadScriptArchive env path_to_load true w
  else if last_open_path ≠ "" then loadScriptArchive env last_open_path false w
  else some w

/-- `RGSS_MainWindow::onArchiveDropped`. -/
def onArchiveDropped (env : Env) (filename : QString) (w : RGSS_MainWindow) :
    Option RGSS_MainWindow :=
  match verifySaveDiscard env w with
  | none => none
  | some (false, w1) => some w1
  | some (true, w1) =>
    match (if w1.archive_opened then closeScriptArchive w1 else some w1) with
    | none => none
    | some w2 => loadScriptArchive env filename true w2

/-- `RGSS_MainWindow::onOpenArchive`. -/
def onOpenArchive (env : Env) (w : RGSS_MainWindow) : Option RGSS_MainWindow :=
  match verifySaveDiscard env w with
  | none => none
  | some (false, w1) => some w1
  | some (true, w1) =>
    match env.openFileName with
    | none => some w1
    | some f =>
      match (if w1.archive_opened then closeScriptArchive w1 else some w1) with
      | none => none
      | some w2 => loadScriptArchive env f true w2

/-- `RGSS_MainWindow::onSaveArchiveAs`. -/
def onSaveArchiveAs (env : Env) (w : RGSS_MainWindow) : Option (Bool × RGSS_MainWindow) :=
  match env.saveFileName with
  | none => some (false, w)
  | some f => saveScriptArchiveAs env f w

/-- `RGSS_MainWindow::onSaveArchive`. -/
def onSaveArchive (env : Env) (w : RGSS_MainWindow) : Option RGSS_MainWindow :=
  if w.open_path = "" then (onSaveArchiveAs env w).map Prod.snd
  else (saveScriptArchiveAs env w.open_path w).map Prod.snd

/-- `RGSS_MainWindow::onCloseArchive`. -/
def onCloseArchive (env : Env) (w : RGSS_MainWindow) : Option RGSS_MainWindow :=
  match verifySaveDiscard env w with
  | none => none
  | some (false, w1) => some w1
  | some (true, w1) => closeScriptArchive w1

/-- `RGSS_MainWindow::closeEvent`: the flag tells whether the event was accepted. -/
def closeEvent (env : Env) (w : RGSS_MainWindow) : Option (Bool × RGSS_MainWindow) :=
  verifySaveDiscard env w

/-- `RGSS_MainWindow::onInsertScript`. -/
def onInsertScript (w : RGSS_MainWindow) : Option RGSS_MainWindow :=
  let row : Int := max w.current_row_ 0
  let inserted := (w.script_list_.insertItem row "").setCurrentRow row
  match currentRowChanged
      { w with archive_ := (w.archive_.insertScript row).2, script_list_ := inserted.1 }
      inserted.2 with
  | none => none
  | some w1 => some (w1.setDataModified true)

/-- `RGSS_MainWindow::onDeleteScript`.  `takeItem` runs the slot of `currentRowChanged`
while the archive still holds the entry; the slot does not read the list widget. -/
def onDeleteScript (w : RGSS_MainWindow) : Option RGSS_MainWindow :=
  if w.archive_.scripts.length = 0 then some w
  else
    let row := w.script_list_.current
    match scriptAt w.archive_.scripts row with
    | none => none
    | some script =>
      let id := script.id
      let editor := w.editor_hash.value id
      let taken := w.script_list_.takeItem row
      match currentRowChanged
          { w with editor_hash := w.editor_hash.remove id,
                   recycled_editors := w.recycled_editors ++ [editor],
                   script_list_ := taken.1 }
          taken.2 with
      | none => none
      | some w1 =>
        some ({ w1 with archive_ := w1.archive_.deleteScript row.toNat }.setDataModified true)

/-- The assertion of `onScriptNameEdited`:
`Q_ASSERT(current_row_ == script_list_.currentRow())`. -/
def nameEditAssertion (w : RGSS_MainWindow) : Prop :=
  w.current_row_ = w.script_list_.current

instance (w : RGSS_MainWindow) : Decidable (nameEditAssertion w) := by
  unfold nameEditAssertion; infer_instance

/-- `RGSS_MainWindow::onScriptNameEdited`.  `none` when there is no current item or
`archive_.scripts[current_row_]` is out of range. -/
def onScriptNameEdited (name : QString) (w : RGSS_MainWindow) : Option RGSS_MainWindow :=
  match w.script_list_.setCurrentText name with
  | none => none
  | some list =>
    if 0 ≤ w.current_row_ ∧ w.current_row_ < w.archive_.scripts.length then
      let w1 : RGSS_MainWindow :=
        { w with script_list_ := list,
                 archive_ := { w.archive_ with
                   scripts := setNameAt name w.current_row_.toNat w.archive_.scripts } }
      some (w1.setDataModified true)
    else none

/-- The user selects a row of the list: the widget makes it current and emits
`currentRowChanged`. -/
def selectRow (row : Int) (w : RGSS_MainWindow) : Option RGSS_MainWindow :=
  let selected := w.script_list_.setCurrentRow row
  currentRowChanged { w with script_list_ := selected.1 } selected.2

/-- The user types in the editor bound to `key`: its text changes, it reports itself
modified, and `textChanged` runs `onScriptEditorModified`. -/
def editText (key : Int) (text : QString) (w : RGSS_MainWindow) : RGSS_MainWindow :=
  match w.editor_hash.value key with
  | none => w
  | some _ =>
    let w1 : RGSS_MainWindow :=
      { w with editor_hash := w.editor_hash.insert key { text := text, modified := true } }
    w1.onScriptEditorModified

/-- The loop of `onImportScripts` over the lines of the index: the scripts built, or the
message box of the first data file that cannot be opened. -/
def importLoop (env : Env) (src_folder : QString) : Nat → List QString →
    Except Event (List Script)
  | _, [] => Except.ok []
  | scIdx, scName :: rest =>
    let scFilename := scFilename scIdx
    match env.openRead (src_folder ++ "/" ++ scFilename) with
    | none =>
      Except.error (Event.critical "File reading error."
        ("Cannot open script \"" ++ scName ++ "\" (" ++ scFilename ++ ")"))
    | some scData =>
      match importLoop env src_folder (scIdx + 1) rest with
      | Except.error e => Except.error e
      | Except.ok scripts =>
        Except.ok ({ magic := 0, name := scName, data := env.fromByteArray scData,
                     id := scIdx } :: scripts)

/-- `RGSS_MainWindow::onImportScripts`. -/
def onImportScripts (env : Env) (w : RGSS_MainWindow) : Option RGSS_MainWindow :=
  match verifySaveDiscard env w with
  | none => none
  | some (false, w1) => some w1
  | some (true, w1) =>
    let src_folder := env.existingDirectory
    if src_folder = "" then some w1
    else
      match env.openRead (src_folder ++ "/index") with
      | none => some (w1.critical "Importing error." "Cannot open index file")
      | some indBytes =>
        match importLoop env src_folder 0 (readLines (env.decodeText indBytes)) with
        | Except.error e => some { w1 with log := w1.log ++ [e] }
        | Except.ok scripts =>
          match closeScriptArchive w1 with
          | none => none
          | some w2 =>
            let w3 : RGSS_MainWindow :=
              { w2 with archive_ := ({ w2.archive_ with scripts := scripts }).rehashIDs,
                        open_path := "" }
            match setupLoadedArchive w3 with
            | none => none
            | some w4 =>
              some { w4.setDataModified true with
                last_valid_folder_impexp := env.absolutePath src_folder }

/-- The loop of `onExportScripts`: the text sent to the index stream and the data files
written, in order.  The name goes to the stream before the data file is opened, and the
loop stops at the first data file that cannot be opened. -/
def exportLoop (env : Env) (dest_folder : QString) : Nat → List Script →
    QString × List (QString × QByteArray)
  | _, [] => ("", [])
  | i, sc :: rest =>
    let path := dest_folder ++ "/" ++ scFilename i
    if env.openWrite path then
      let more := exportLoop env dest_folder (i + 1) rest
      (sc.name ++ "\n" ++ more.1, (path, env.toUtf8 sc.data) :: more.2)
    else
      (sc.name ++ "\n", [])

/-- `RGSS_MainWindow::onExportScripts`. -/
def onExportScripts (env : Env) (w : RGSS_MainWindow) : Option RGSS_MainWindow :=
  let dest_folder := env.existingDirectory
  if dest_folder = "" then some w
  else if env.openWrite (dest_folder ++ "/index") then
    match storeChangedScripts { w with log := w.log ++ [Event.opened (dest_folder ++ "/index")] }
      with
    | none => none
    | some w1 =>
      let out := exportLoop env dest_folder 0 w1.archive_.scripts
      some { w1 with
        log := w1.log ++ out.2.map (fun f => Event.dataWritten f.1 f.2) ++
          [Event.textWritten (dest_folder ++ "/index") out.1],
        last_valid_folder_impexp := env.absolutePath dest_folder }
  else
    some (w.critical "Importing error." "Cannot open index file")

/-! ## Reachable states -/

/-- One slot invocation or user action.  Inserting, selecting a row and editing the name
go through widgets that `enableEditing(false)` disables; `selectRow` takes any row, and
`editText` any key, which is more than the user interface offers.  `editorModified` is a
`textChanged` signal arriving on its own, as when `setText` runs on a recycled widget that
`onDeleteScript` left connected. -/
inductive Step : RGSS_MainWindow → RGSS_MainWindow → Prop
  | openArchive (env : Env) (w w1 : RGSS_MainWindow) :
      onOpenArchive env w = some w1 → Step w w1
  | archiveDropped (env : Env) (filename : QString) (w w1 : RGSS_MainWindow) :
      onArchiveDropped env filename w = some w1 → Step w w1
  | saveArchive (env : Env) (w w1 : RGSS_MainWindow) :
      onSaveArchive env w = some w1 → Step w w1
  | saveArchiveAs (env : Env) (w : RGSS_MainWindow) (r : Bool × RGSS_MainWindow) :
      onSaveArchiveAs env w = some r → Step w r.2
  | importScripts (env : Env) (w w1 : RGSS_MainWindow) :
      onImportScripts env w = some w1 → Step w w1
  | exportScripts (env : Env) (w w1 : RGSS_MainWindow) :
      onExportScripts env w = some w1 → Step w w1
  | closeArchive (env : Env) (w w1 : RGSS_MainWindow) :
      onCloseArchive env w = some w1 → Step w w1
  | closeRequested (env : Env) (w : RGSS_MainWindow) (r : Bool × RGSS_MainWindow) :
      closeEvent env w = some r → Step w r.2
  | insertScript (w w1 : RGSS_MainWindow) :
      w.editing_enabled = true → onInsertScript w = some w1 → Step w w1
  | deleteScript (w w1 : RGSS_MainWindow) :
      onDeleteScript w = some w1 → Step w w1
  | rowSelected (row : Int) (w w1 : RGSS_MainWindow) :
      w.editing_enabled = true → selectRow row w = some w1 → Step w w1
  | nameEdited (name : QString) (w w1 : RGSS_MainWindow) :
      w.editing_enabled = true → onScriptNameEdited name w = some w1 → Step w w1
  | textEdited (key : Int) (text : QString) (w : RGSS_MainWindow) :
      Step w (editText key text w)
  | editorModified (w : RGSS_MainWindow) :
      Step w w.onScriptEditorModified

/-- States the window can be in: what the constructor leaves, and what slots and user
actions make of a reachable state. -/
inductive Reachable : RGSS_MainWindow → Prop
  | start (env : Env) (path_to_load last_open_path : QString) (archive_opened : Bool)
      (last_valid_folder last_valid_folder_impexp : QString) (w : RGSS_MainWindow) :
      construct env path_to_load last_open_path
        (constructed archive_opened last_valid_folder last_valid_folder_impexp) = some w →
      Reachable w
  | step (w w1 : RGSS_MainWindow) : Reachable w → Step w w1 → Reachable w1

/-! ## Auxiliary definitions for the statements -/

/-- Merge of one entry with the bindings: the text of a modified editor bound to the
entry's id replaces the data. -/
def mergeEntry (es : List (Int × EditorWidget)) (s : Script) : Script :=
  match lookupKey s.id es with
  | some e => if e.modified then { s with data := e.text } else s
  | none => s

/-- Id, magic and name of an entry: what `storeChangedScripts` leaves alone. -/
def scriptHeader (s : Script) : Int × Int × QString := (s.id, s.magic, s.name)

/-- Text sent to the index stream by an export loop that runs to the end. -/
def indexText : List Script → QString
  | [] => ""
  | sc :: rest => sc.name ++ "\n" ++ indexText rest

/-- Whether an event is a message box. -/
def Event.isCritical : Event → Bool
  | Event.critical _ _ => true
  | _ => false

/-- Value of one decimal digit character. -/
def digitValue (c : Char) : Nat := c.toNat - 48

/-- The number written by a string of decimal digits. -/
def parseDecimal (cs : List Char) : Nat := cs.foldl (fun acc c => 10 * acc + digitValue c) 0

/-- Bytes a data file holds after the writes recorded in a log: those of the last
`scFile.write` to that path. -/
def fileContents (path : QString) : List Event → Option QByteArray
  | [] => none
  | e :: rest =>
    match fileContents path rest with
    | some bytes => some bytes
    | none =>
      match e with
      | Event.dataWritten p bytes => if p = path then some bytes else none
      | _ => none

/-- Ids of the archive entries, in order. -/
def ids (w : RGSS_MainWindow) : List Int := w.archive_.scripts.map Script.id

/-- The id at a row of an id list; `none` for a row out of range. -/
def idAt (l : List Int) (row : Int) : Option Int :=
  if 0 ≤ row then l[row.toNat]? else none

/-- What holds of the window between slot invocations. -/
structure Inv (w : RGSS_MainWindow) : Prop where
  /-- Every key of the editor map is the id of an entry of the archive. -/
  keys_in_archive : ∀ k ∈ w.editor_hash.keys, k ∈ ids w
  /-- The list widget has one item for each entry. -/
  list_length : w.script_list_.items.length = w.archive_.scripts.length
  /-- The entry shown as current has an editor. -/
  current_has_editor : ∀ k, idAt (ids w) w.script_list_.current = some k → k ∈ w.editor_hash.keys
  /-- No null pointer waits among the recycled editors. -/
  recycled_not_null : ∀ e ∈ w.recycled_editors, e ≠ none
  /-- While editing is disabled there is no editor and no entry. -/
  disabled_empty : w.editing_enabled = false → w.editor_hash.keys = [] ∧ w.archive_.scripts = []
  /-- Editing is enabled only while an archive is open. -/
  closed_disabled : w.archive_opened = false → w.editing_enabled = false

/-- Effect of delivering `currentRowChanged` with the given argument. -/
def SlotEffect (sig : Option Int) (w w1 : RGSS_MainWindow) : Prop :=
  ∃ hash recycled row,
    w1 = { w with editor_hash := hash, recycled_editors := recycled, current_row_ := row } ∧
    (∀ e ∈ recycled, e ∈ w.recycled_editors) ∧
    ((∀ x, x ∈ hash.keys ↔ x ∈ w.editor_hash.keys) ∧ (sig = none ∨ sig = some (-1)) ∨
      ∃ idx s, sig = some idx ∧ scriptAt w.archive_.scripts idx = some s ∧
        ∀ x, x ∈ hash.keys ↔ x = s.id ∨ x ∈ w.editor_hash.keys)

/-- The ids of the archive are pairwise distinct and all below the next id to be issued. -/
def Fresh (w : RGSS_MainWindow) : Prop :=
  (ids w).Nodup ∧ ∀ k ∈ ids w, k < w.archive_.id_counter

/-! ## Sample data -/

/-- A world with an archive `/dir/Scripts.rxdata` of two scripts, an import folder `/imp`
holding the index `Intro`, `Battle` and the files `000`, `001`, and an export folder `/exp`
in which `001` cannot be opened for writing. -/
def sampleEnv : Env :=
  { absoluteFilePath := fun p => p
    absolutePath := fun _ => "/dir"
    openRead := fun p =>
      if p = "/dir/Scripts.rxdata" then some [4, 8]
      else if p = "/imp/index" then some [73]
      else if p = "/imp/000" then some [80, 48]
      else if p = "/imp/001" then some [80, 49]
      else none
    openWrite := fun p => decide (p ≠ "/exp/001")
    archiveRead := fun _ => Except.ok (Format.XP, [(10, "Main", "puts 1"), (0, "Sub", "")])
    archiveWrite := fun _ _ => true
    toUtf8 := fun s => s.data.map Char.toNat
    fromByteArray := fun b => String.mk (b.map Char.ofNat)
    decodeText := fun _ => "Intro\nBattle\n"
    saveDiscard := DialogResult.Save
    openFileName := none
    saveFileName := none
    existingDirectory := "/exp" }

/-- The window right after the constructor loaded `/dir/Scripts.rxdata`. -/
def loadedWindow : RGSS_MainWindow :=
  { archive_ :=
      { scripts := [{ magic := 10, name := "Main", data := "puts 1", id := 0 },
                    { magic := 0, name := "Sub", data := "", id := 1 }],
        format := Format.XP, id_counter := 2 },
    editor_hash := QHash.empty.insert 0 { text := "puts 1", modified := false },
    recycled_editors := [],
    script_list_ := { items := ["Main", "Sub"], current := 0 },
    editing_enabled := true,
    current_row_ := 0,
    data_modified_ := false,
    archive_opened := true,
    open_path := "/dir/Scripts.rxdata",
    last_valid_folder := "/dir",
    last_valid_folder_impexp := "",
    log := [] }

/-- The loaded window after the user typed `puts 2` into the editor of the first script. -/
def editedWindow : RGSS_MainWindow := editText 0 "puts 2" loadedWindow

/-- The sample world with a `ScriptArchive::write` that throws. -/
def failingWriteEnv : Env := { sampleEnv with archiveWrite := fun _ _ => false }

/-- The sample world with an import folder whose file `001` is missing. -/
def missingFileEnv : Env :=
  { sampleEnv with
    existingDirectory := "/imp"
    saveDiscard := DialogResult.Discard
    openRead := fun p =>
      if p = "/imp/index" then some [73] else if p = "/imp/000" then some [80, 48] else none }

/-- The sample world with every file of the export folder writable. -/
def writableEnv : Env := { sampleEnv with openWrite := fun _ => true }

/-- A window whose single script has a name of two lines. -/
def twoLineNameWindow : RGSS_MainWindow :=
  { loadedWindow with
    archive_ := { scripts := [{ magic := 0, name := "a\nb", data := "", id := 0 }],
                  format := Format.XP, id_counter := 1 },
    script_list_ := { items := ["a\nb"], current := 0 } }

/-! ## Saving: format choice and the merge of editor text -/

theorem storeChangedScripts_frame {w w1 : RGSS_MainWindow}
    (h : storeChangedScripts w = some w1) :
    w1 = { w with archive_ := w1.archive_, editor_hash := w1.editor_hash } := by
  unfold storeChangedScripts at h
  split at h
  · exact absurd h (by simp)
  · simp only [Option.some.injEq] at h
    subst h
    rfl

theorem saveScriptArchiveAs_cases (env : Env) (file : QString)
    (w : RGSS_MainWindow) :
    (∀ F : Format,
        ((suffix file = "rxdata" ∨ suffix file = "rvdata") ∧ F = Format.XP) ∨
          (suffix file = "rvdata2" ∧ F = Format.VXAce) →
        env.openWrite file = true →
        ∀ w1, storeChangedScripts { w with log := w.log ++ [Event.opened file] } = some w1 →
        ∃ w2, saveScriptArchiveAs env file w = some (env.archiveWrite F w1.archive_, w2) ∧
          w2.log = w.log ++ Event.opened file :: Event.archiveWrite file F w1.archive_ ::
            (if env.archiveWrite F w1.archive_ then []
              else [Event.critical "File saving error." ("Cannot save: " ++ file)])) ∧
    (suffix file ≠ "rxdata" → suffix file ≠ "rvdata" → suffix file ≠ "rvdata2" →
      saveScriptArchiveAs env file w =
        some (false, w.critical "File saving error."
          ("Unrecognized file extension: " ++ suffix file))) := by
  constructor
  · intro F hF hopen w1 hstore
    have hlog : w1.log = w.log ++ [Event.opened file] := by
      rw [storeChangedScripts_frame hstore]
    have hfmt : (if suffix file = "rxdata" then some Format.XP
        else if suffix file = "rvdata" then some Format.XP
        else if suffix file = "rvdata2" then some Format.VXAce
        else none) = some F := by
      rcases hF with ⟨h | h, rfl⟩ | ⟨h, rfl⟩
      · simp [h]
      · simp [h]
      · rw [h]; decide
    unfold saveScriptArchiveAs
    simp only [hfmt, hopen, hstore, if_true]
    by_cases hw : env.archiveWrite F w1.archive_ = true
    · simp [hw, setDataModified, hlog]
    · simp [hw, critical, hlog]
  · intro h1 h2 h3
    unfold saveScriptArchiveAs
    simp [h1, h2, h3]

/-- C1: saveScriptArchiveAs takes the write format from the suffix of the destination
alone.  With suffix rxdata or rvdata the call to ScriptArchive::write is made with XP, with
suffix rvdata2 with VXAce, whatever format tag the archive carries; with any other suffix
the function returns false having only shown a message box: no file was opened, no editor
text merged and write not called. -/
theorem saveScriptArchiveAs_format_from_suffix (env : Env) (file : QString)
    (w : RGSS_MainWindow) :
    (∀ F : Format,
        ((suffix file = "rxdata" ∨ suffix file = "rvdata") ∧ F = Format.XP) ∨
          (suffix file = "rvdata2" ∧ F = Format.VXAce) →
        env.openWrite file = true →
        ∀ w1, storeChangedScripts { w with log := w.log ++ [Event.opened file] } = some w1 →
        ∃ w2, saveScriptArchiveAs env file w = some (env.archiveWrite F w1.archive_, w2) ∧
          w2.log = w.log ++ Event.opened file :: Event.archiveWrite file F w1.archive_ ::
            (if env.archiveWrite F w1.archive_ then []
              else [Event.critical "File saving error." ("Cannot save: " ++ file)])) ∧
    (suffix file ≠ "rxdata" → suffix file ≠ "rvdata" → suffix file ≠ "rvdata2" →
      saveScriptArchiveAs env file w =
        some (false, w.critical "File saving error."
          ("Unrecognized file extension: " ++ suffix file))) :=
  saveScriptArchiveAs_cases env file w

theorem saveScriptArchiveAs_format_from_suffix_witness :
    saveScriptArchiveAs sampleEnv "" loadedWindow =
        some (false, loadedWindow.critical "File saving error."
          ("Unrecognized file extension: " ++ suffix "")) ∧
      ∃ w2, saveScriptArchiveAs sampleEnv "/out/Scripts.rvdata2" loadedWindow =
          some (true, w2) ∧
        w2.log = [Event.opened "/out/Scripts.rvdata2",
          Event.archiveWrite "/out/Scripts.rvdata2" Format.VXAce loadedWindow.archive_] :=
  ⟨(saveScriptArchiveAs_format_from_suffix sampleEnv "" loadedWindow).2
      (by decide) (by decide) (by decide),
    (saveScriptArchiveAs_format_from_suffix sampleEnv "/out/Scripts.rvdata2" loadedWindow).1
      Format.VXAce (Or.inr ⟨by decide, rfl⟩) (by decide)
      { loadedWindow with log := [Event.opened "/out/Scripts.rvdata2"] } (by decide)⟩


theorem findID_of_mem (k : Int) (l : List Script) (h : ∃ s ∈ l, s.id = k) :
    ∃ p, findID k l = some p := by
  induction l with
  | nil => obtain ⟨s, hs, _⟩ := h; cases hs
  | cons a rest ih =>
    by_cases ha : a.id = k
    · exact ⟨0, by simp [findID, ha]⟩
    · obtain ⟨s, hs, hk⟩ := h
      have hrest : ∃ s ∈ rest, s.id = k := by
        rcases List.mem_cons.mp hs with rfl | hmem
        · exact absurd hk ha
        · exact ⟨s, hmem, hk⟩
      obtain ⟨p, hp⟩ := ih hrest
      exact ⟨p + 1, by simp [findID, ha, hp]⟩

theorem setDataAt_findID (k : Int) (text : QString) (l : List Script) (p : Nat)
    (hp : findID k l = some p) (hnd : (l.map Script.id).Nodup) :
    setDataAt text p l = l.map (fun s => if s.id = k then { s with data := text } else s) := by
  induction l generalizing p with
  | nil => simp [findID] at hp
  | cons a rest ih =>
    simp only [List.map_cons, List.nodup_cons] at hnd
    by_cases ha : a.id = k
    · simp only [findID, ha, if_true, Option.some.injEq] at hp
      subst hp
      have hrest : ∀ s ∈ rest, s.id ≠ k := by
        intro s hs hk
        exact hnd.1 (List.mem_map.mpr ⟨s, hs, by rw [hk, ha]⟩)
      simp only [setDataAt, List.map_cons, ha, if_true]
      congr 1
      symm
      calc rest.map (fun s => if s.id = k then { s with data := text } else s)
          = rest.map id := List.map_congr_left (fun s hs => by simp [hrest s hs])
        _ = rest := List.map_id rest
    · simp only [findID, ha, if_false] at hp
      cases hq : findID k rest with
      | none => simp [hq] at hp
      | some q =>
        simp only [hq, Option.map_some', Option.some.injEq] at hp
        subst hp
        simp [setDataAt, ha, ih q hq hnd.2]

theorem lookupKey_none_of_not_mem {V : Type} (k : Int) (es : List (Int × V))
    (h : k ∉ es.map Prod.fst) : lookupKey k es = none := by
  induction es with
  | nil => rfl
  | cons e rest ih =>
    simp only [List.map_cons, List.mem_cons, not_or] at h
    simp [lookupKey, Ne.symm h.1, ih h.2]

theorem storeLoop_spec (es : List (Int × EditorWidget)) (a : ScriptArchive)
    (hes : (es.map Prod.fst).Nodup)
    (hkeys : ∀ k ∈ es.map Prod.fst, ∃ s ∈ a.scripts, s.id = k)
    (hids : (a.scripts.map Script.id).Nodup) :
    ∃ r, storeLoop a es = some r ∧
      r.1 = { a with scripts := a.scripts.map (mergeEntry es) } ∧
      r.2.1 = es.map (fun e => (e.1, e.2.setModified false)) := by
  induction es generalizing a with
  | nil =>
    refine ⟨_, rfl, ?_, rfl⟩
    have hid : a.scripts.map (mergeEntry []) = a.scripts := by
      calc a.scripts.map (mergeEntry []) = a.scripts.map id :=
            List.map_congr_left (fun s _ => by simp [mergeEntry, lookupKey])
        _ = a.scripts := List.map_id _
    simp [hid]
  | cons e rest ih =>
    obtain ⟨key, editor⟩ := e
    simp only [List.map_cons, List.nodup_cons] at hes
    have hkeys_rest : ∀ (b : ScriptArchive), b.scripts.map Script.id = a.scripts.map Script.id →
        ∀ k ∈ rest.map Prod.fst, ∃ s ∈ b.scripts, s.id = k := by
      intro b hb k hk
      obtain ⟨s, hs, hsk⟩ := hkeys k (by simp only [List.map_cons]; exact List.mem_cons_of_mem _ hk)
      have : k ∈ b.scripts.map Script.id := by
        rw [hb]; exact List.mem_map.mpr ⟨s, hs, hsk⟩
      obtain ⟨s1, hs1, hs1k⟩ := List.mem_map.mp this
      exact ⟨s1, hs1, hs1k⟩
    by_cases hm : editor.modified = true
    · obtain ⟨p, hp⟩ := findID_of_mem key a.scripts (hkeys key (by simp))
      have hset := setDataAt_findID key editor.text a.scripts p hp hids
      have hidmap : (setDataAt editor.text p a.scripts).map Script.id = a.scripts.map Script.id := by
        rw [hset, List.map_map]
        apply List.map_congr_left
        intro s _
        by_cases hs : s.id = key <;> simp [hs]
      obtain ⟨r, hr, hr1, hr2⟩ := ih { a with scripts := setDataAt editor.text p a.scripts }
        hes.2 (hkeys_rest _ hidmap) (by rw [hidmap]; exact hids)
      obtain ⟨ra, rout⟩ := r
      refine ⟨(ra, ⟨(key, editor.setModified false) :: rout.1, by simp [rout.2]⟩), ?_, ?_, ?_⟩
      · simp only [storeLoop, hm, if_true, ScriptArchive.getScriptForID, hp, hr]
      · simp only at hr1 ⊢
        rw [hr1, hset, List.map_map]
        congr 1
        apply List.map_congr_left
        intro s _
        by_cases hs : s.id = key
        · simp [mergeEntry, lookupKey, hs, hm, lookupKey_none_of_not_mem key rest hes.1]
        · simp [mergeEntry, lookupKey, hs, Ne.symm hs]
      · simp only at hr2 ⊢
        simp [hr2]
    · obtain ⟨r, hr, hr1, hr2⟩ := ih a hes.2 (hkeys_rest a rfl) hids
      obtain ⟨ra, rout⟩ := r
      have hmf : editor.modified = false := by simpa using hm
      refine ⟨(ra, ⟨(key, editor) :: rout.1, by simp [rout.2]⟩), ?_, ?_, ?_⟩
      · simp only [storeLoop, hmf, hr]
        simp
      · simp only at hr1 ⊢
        rw [hr1]
        congr 1
        apply List.map_congr_left
        intro s _
        by_cases hs : s.id = key
        · simp [mergeEntry, lookupKey, hs, hmf, lookupKey_none_of_not_mem key rest hes.1]
        · simp [mergeEntry, lookupKey, hs, Ne.symm hs]
      · simp only at hr2 ⊢
        simp [hr2, EditorWidget.setModified]
        cases editor
        simp_all



theorem lookupKey_map {V : Type} (f : V → V) (k : Int) (es : List (Int × V)) :
    lookupKey k (es.map (fun e => (e.1, f e.2))) = (lookupKey k es).map f := by
  induction es with
  | nil => rfl
  | cons e rest ih =>
    by_cases he : e.1 = k <;> simp [lookupKey, he, ih]

/-- C2: storeChangedScripts merges editor text by id.  For an archive with pairwise
distinct ids and an editor map whose keys are ids of entries, it returns, every entry
keeps its position, id, magic and name, its data becomes the text of the editor bound to
its id when that editor was modified and stays as it was otherwise, the map keeps its keys
and texts, every editor in it is unmodified, and nothing else in the window changes. -/
theorem storeChangedScripts_merges_by_id (w : RGSS_MainWindow)
    (hkeys : ∀ k ∈ w.editor_hash.keys, ∃ s ∈ w.archive_.scripts, s.id = k)
    (hids : (w.archive_.scripts.map Script.id).Nodup) :
    ∃ w1, storeChangedScripts w = some w1 ∧
      w1 = { w with archive_ := w1.archive_, editor_hash := w1.editor_hash } ∧
      w1.archive_.scripts.length = w.archive_.scripts.length ∧
      (∀ (i : Nat) (s : Script), w.archive_.scripts[i]? = some s →
        ∃ s1, w1.archive_.scripts[i]? = some s1 ∧
          s1.id = s.id ∧ s1.magic = s.magic ∧ s1.name = s.name ∧
          s1.data = (match w.editor_hash.value s.id with
            | some e => if e.modified then e.text else s.data
            | none => s.data)) ∧
      w1.editor_hash.keys = w.editor_hash.keys ∧
      (∀ k e, w.editor_hash.value k = some e →
        w1.editor_hash.value k = some { e with modified := false }) ∧
      (∀ e ∈ w1.editor_hash.entries, e.2.modified = false) := by
  obtain ⟨r, hr, hr1, hr2⟩ :=
    storeLoop_spec w.editor_hash.entries w.archive_ w.editor_hash.nodup hkeys hids
  obtain ⟨ra, rout⟩ := r
  simp only at hr1 hr2
  refine ⟨{ w with archive_ := ra,
                   editor_hash := ⟨rout.1, by rw [rout.2]; exact w.editor_hash.nodup⟩ },
    ?_, rfl, ?_, ?_, ?_, ?_, ?_⟩
  · simp only [storeChangedScripts, hr]
  · simp [hr1]
  · intro i s hs
    refine ⟨mergeEntry w.editor_hash.entries s, ?_, ?_⟩
    · simp [hr1, hs]
    · unfold mergeEntry QHash.value
      cases hl : lookupKey s.id w.editor_hash.entries with
      | none => simp
      | some e => by_cases hm : e.modified = true <;> simp [hm]
  · simp [QHash.keys, rout.2]
  · intro k e hk
    simp only [QHash.value] at hk ⊢
    rw [hr2]
    have := lookupKey_map (fun e : EditorWidget => e.setModified false) k w.editor_hash.entries
    rw [this, hk]
    rfl
  · intro e he
    simp only [hr2, List.mem_map] at he
    obtain ⟨e0, _, rfl⟩ := he
    rfl

theorem storeChangedScripts_merges_by_id_witness :
    ∃ w1, storeChangedScripts editedWindow = some w1 ∧
      w1.archive_.scripts =
        [{ magic := 10, name := "Main", data := "puts 2", id := 0 },
         { magic := 0, name := "Sub", data := "", id := 1 }] ∧
      w1.editor_hash.value 0 = some { text := "puts 2", modified := false } := by
  obtain ⟨w1, h, -, -, hs, -, he, -⟩ :=
    storeChangedScripts_merges_by_id editedWindow (by decide) (by decide)
  refine ⟨w1, h, ?_, he 0 { text := "puts 2", modified := true } (by decide)⟩
  have h1 : storeChangedScripts editedWindow = some
      { editedWindow with
        archive_ := { editedWindow.archive_ with
          scripts := [{ magic := 10, name := "Main", data := "puts 2", id := 0 },
                      { magic := 0, name := "Sub", data := "", id := 1 }] },
        editor_hash := QHash.empty.insert 0 { text := "puts 2", modified := false } } := by
    decide
  rw [h1] at h
  cases h
  rfl


/-! ## The editor map and the merge loop: frame facts -/

theorem mem_keys_insert {V : Type} (h : QHash V) (k : Int) (v : V) (x : Int) :
    x ∈ (h.insert k v).keys ↔ x = k ∨ x ∈ h.keys := by
  simp only [QHash.keys, QHash.insert, QHash.remove, List.map_cons, List.mem_cons, List.mem_map,
    List.mem_filter]
  constructor
  · rintro (h1 | ⟨e, ⟨he, _⟩, rfl⟩)
    · exact Or.inl h1
    · exact Or.inr ⟨e, he, rfl⟩
  · rintro (h1 | ⟨e, he, rfl⟩)
    · exact Or.inl h1
    · by_cases hk : e.1 = k
      · exact Or.inl hk
      · exact Or.inr ⟨e, ⟨he, by simpa using hk⟩, rfl⟩

theorem mem_keys_remove {V : Type} (h : QHash V) (k : Int) (x : Int) :
    x ∈ (h.remove k).keys ↔ x ∈ h.keys ∧ x ≠ k := by
  simp only [QHash.keys, QHash.remove, List.mem_map, List.mem_filter]
  constructor
  · rintro ⟨e, ⟨he, hk⟩, rfl⟩
    exact ⟨⟨e, he, rfl⟩, by simpa using hk⟩
  · rintro ⟨⟨e, he, rfl⟩, hk⟩
    exact ⟨e, ⟨he, by simpa using hk⟩, rfl⟩

theorem lookupKey_isSome_iff {V : Type} (k : Int) (es : List (Int × V)) :
    (lookupKey k es).isSome = true ↔ k ∈ es.map Prod.fst := by
  induction es with
  | nil => simp [lookupKey]
  | cons e rest ih =>
    by_cases he : e.1 = k
    · simp [lookupKey, he]
    · simp only [lookupKey, he, if_false, ih, List.map_cons, List.mem_cons]
      constructor
      · exact Or.inr
      · rintro (h | h)
        · exact absurd h.symm he
        · exact h

theorem contains_iff_mem_keys {V : Type} (h : QHash V) (k : Int) :
    h.contains k = true ↔ k ∈ h.keys := by
  simp only [QHash.contains, QHash.value, QHash.keys]
  exact lookupKey_isSome_iff k h.entries

theorem value_ne_none_of_mem_keys {V : Type} (h : QHash V) (k : Int) (hk : k ∈ h.keys) :
    h.value k ≠ none := by
  have := (contains_iff_mem_keys h k).mpr hk
  simp only [QHash.contains] at this
  intro hn
  rw [hn] at this
  exact absurd this (by simp)

theorem setDataAt_header (text : QString) (p : Nat) (l : List Script) :
    (setDataAt text p l).map scriptHeader = l.map scriptHeader := by
  induction l generalizing p with
  | nil => cases p <;> rfl
  | cons a rest ih =>
    cases p with
    | zero => simp [setDataAt, scriptHeader]
    | succ q => simp [setDataAt, ih q]

theorem storeLoop_frame (es : List (Int × EditorWidget)) (a : ScriptArchive)
    {r : ScriptArchive ×
      { out : List (Int × EditorWidget) // out.map Prod.fst = es.map Prod.fst }}
    (h : storeLoop a es = some r) :
    r.1.scripts.map scriptHeader = a.scripts.map scriptHeader ∧
      r.1.format = a.format ∧ r.1.id_counter = a.id_counter := by
  induction es generalizing a with
  | nil =>
    simp only [storeLoop, Option.some.injEq] at h
    subst h
    exact ⟨rfl, rfl, rfl⟩
  | cons e rest ih =>
    obtain ⟨key, editor⟩ := e
    by_cases hm : editor.modified = true
    · simp only [storeLoop, hm, if_true] at h
      cases hp : a.getScriptForID key with
      | none => simp [hp] at h
      | some p =>
        simp only [hp] at h
        cases hr : storeLoop { a with scripts := setDataAt editor.text p a.scripts } rest with
        | none => simp [hr] at h
        | some r1 =>
          obtain ⟨ra, rout⟩ := r1
          simp only [hr, Option.some.injEq] at h
          subst h
          have := ih _ hr
          simp only [setDataAt_header] at this
          exact this
    · have hmf : editor.modified = false := by simpa using hm
      simp only [storeLoop, hmf] at h
      cases hr : storeLoop a rest with
      | none => simp [hr] at h
      | some r1 =>
        obtain ⟨ra, rout⟩ := r1
        simp [hr] at h
        subst h
        exact ih _ hr

theorem storeLoop_total (es : List (Int × EditorWidget)) (a : ScriptArchive)
    (hkeys : ∀ k ∈ es.map Prod.fst, ∃ s ∈ a.scripts, s.id = k) :
    ∃ r, storeLoop a es = some r := by
  induction es generalizing a with
  | nil => exact ⟨_, rfl⟩
  | cons e rest ih =>
    obtain ⟨key, editor⟩ := e
    have hrest : ∀ (b : ScriptArchive),
        b.scripts.map scriptHeader = a.scripts.map scriptHeader →
        ∀ k ∈ rest.map Prod.fst, ∃ s ∈ b.scripts, s.id = k := by
      intro b hb k hk
      obtain ⟨s, hs, hsk⟩ := hkeys k (by simp only [List.map_cons]; exact List.mem_cons_of_mem _ hk)
      have hmem : scriptHeader s ∈ b.scripts.map scriptHeader := by
        rw [hb]; exact List.mem_map.mpr ⟨s, hs, rfl⟩
      obtain ⟨s1, hs1, hs1k⟩ := List.mem_map.mp hmem
      refine ⟨s1, hs1, ?_⟩
      have : (scriptHeader s1).1 = (scriptHeader s).1 := by rw [hs1k]
      simpa [scriptHeader, hsk] using this
    by_cases hm : editor.modified = true
    · obtain ⟨p, hp⟩ := findID_of_mem key a.scripts (hkeys key (by simp))
      obtain ⟨r, hr⟩ := ih { a with scripts := setDataAt editor.text p a.scripts }
        (hrest _ (setDataAt_header _ _ _))
      obtain ⟨ra, rout⟩ := r
      exact ⟨(ra, ⟨(key, editor.setModified false) :: rout.1, by simp [rout.2]⟩), by
        simp only [storeLoop, hm, if_true, ScriptArchive.getScriptForID, hp, hr]⟩
    · have hmf : editor.modified = false := by simpa using hm
      obtain ⟨r, hr⟩ := ih a (hrest a rfl)
      obtain ⟨ra, rout⟩ := r
      exact ⟨(ra, ⟨(key, editor) :: rout.1, by simp [rout.2]⟩), by
        simp only [storeLoop, hmf, hr]
        simp⟩

theorem storeChangedScripts_total (w : RGSS_MainWindow)
    (hkeys : ∀ k ∈ w.editor_hash.keys, ∃ s ∈ w.archive_.scripts, s.id = k) :
    ∃ w1, storeChangedScripts w = some w1 := by
  obtain ⟨r, hr⟩ := storeLoop_total w.editor_hash.entries w.archive_ hkeys
  obtain ⟨ra, rout⟩ := r
  exact ⟨{ w with archive_ := ra,
                  editor_hash := ⟨rout.1, by rw [rout.2]; exact w.editor_hash.nodup⟩ }, by
    simp only [storeChangedScripts, hr]⟩

theorem storeChangedScripts_keeps {w w1 : RGSS_MainWindow}
    (h : storeChangedScripts w = some w1) :
    w1.archive_.scripts.map scriptHeader = w.archive_.scripts.map scriptHeader ∧
      w1.archive_.format = w.archive_.format ∧
      w1.archive_.id_counter = w.archive_.id_counter ∧
      w1.editor_hash.keys = w.editor_hash.keys := by
  unfold storeChangedScripts at h
  cases hr : storeLoop w.archive_ w.editor_hash.entries with
  | none => simp [hr] at h
  | some r =>
    obtain ⟨ra, rout⟩ := r
    simp only [hr, Option.some.injEq] at h
    subst h
    obtain ⟨h1, h2, h3⟩ := storeLoop_frame _ _ hr
    exact ⟨h1, h2, h3, rout.2⟩

theorem storeChangedScripts_log (w : RGSS_MainWindow) (log : List Event) :
    storeChangedScripts { w with log := log } =
      (storeChangedScripts w).map (fun w1 => { w1 with log := log }) := by
  unfold storeChangedScripts
  cases hr : storeLoop w.archive_ w.editor_hash.entries with
  | none => simp [hr]
  | some r =>
    obtain ⟨ra, rout⟩ := r
    simp [hr]

theorem ids_of_header {l1 l2 : List Script}
    (h : l1.map scriptHeader = l2.map scriptHeader) :
    l1.map Script.id = l2.map Script.id := by
  have := congrArg (List.map (fun t : Int × Int × QString => t.1)) h
  simpa [List.map_map, Function.comp, scriptHeader] using this

/-! ## Export -/

theorem readLinesAux_line (line : List Char) (hline : '\n' ∉ line) (acc tail : List Char) :
    readLinesAux acc (line ++ '\n' :: tail) =
      String.mk (stripCR (acc ++ line)) :: readLinesAux [] tail := by
  induction line generalizing acc with
  | nil => simp [readLinesAux]
  | cons c cs ih =>
    simp only [List.mem_cons, not_or] at hline
    have hc : c ≠ '\n' := fun h => hline.1 h.symm
    show readLinesAux acc (c :: (cs ++ '\n' :: tail)) = _
    simp only [readLinesAux, hc, if_false]
    rw [ih hline.2]
    simp

theorem stripCR_of_last (line : List Char) (h : line.getLast? ≠ some '\r') :
    stripCR line = line := by
  simp [stripCR, h]

theorem readLines_indexText (scripts : List Script)
    (hnames : ∀ s ∈ scripts, '\n' ∉ s.name.data ∧ s.name.data.getLast? ≠ some '\r') :
    readLines (indexText scripts) = scripts.map Script.name := by
  induction scripts with
  | nil => rfl
  | cons sc rest ih =>
    have hsc := hnames sc (List.mem_cons_self _ _)
    have hrest := ih (fun s hs => hnames s (List.mem_cons_of_mem _ hs))
    unfold readLines at hrest ⊢
    simp only [indexText, String.data_append]
    rw [List.append_assoc, List.singleton_append, readLinesAux_line _ hsc.1, hrest]
    simp [stripCR_of_last _ hsc.2]

theorem exportLoop_complete (env : Env) (dest : QString) (scripts : List Script) (i : Nat)
    (hfiles : ∀ j, j < scripts.length → env.openWrite (dest ++ "/" ++ scFilename (i + j)) = true) :
    exportLoop env dest i scripts =
      (indexText scripts,
        (scripts.enumFrom i).map (fun p => (dest ++ "/" ++ scFilename p.1, env.toUtf8 p.2.data))) := by
  induction scripts generalizing i with
  | nil => rfl
  | cons sc rest ih =>
    have h0 := hfiles 0 (by simp)
    have hrest := ih (i + 1) (fun j hj => by
      have := hfiles (j + 1) (by simpa using hj)
      rwa [show i + 1 + j = i + (j + 1) by omega])
    simp only [Nat.add_zero] at h0
    simp [exportLoop, h0, hrest, indexText, List.enumFrom]

theorem exportLoop_stops_early (env : Env) (dest : QString) (scripts : List Script)
    (i k : Nat) (hk : k < scripts.length)
    (hopen : ∀ j, j < k → env.openWrite (dest ++ "/" ++ scFilename (i + j)) = true)
    (hfail : env.openWrite (dest ++ "/" ++ scFilename (i + k)) = false) :
    exportLoop env dest i scripts =
      (indexText (scripts.take (k + 1)),
        ((scripts.take k).enumFrom i).map
          (fun p => (dest ++ "/" ++ scFilename p.1, env.toUtf8 p.2.data))) := by
  induction scripts generalizing i k with
  | nil => simp at hk
  | cons sc rest ih =>
    cases k with
    | zero =>
      simp only [Nat.add_zero] at hfail
      simp [exportLoop, hfail, indexText]
    | succ m =>
      have h0 := hopen 0 (by omega)
      simp only [Nat.add_zero] at h0
      have hrest := ih (i + 1) m (by simpa using hk)
        (fun j hj => by
          have := hopen (j + 1) (by omega)
          rwa [show i + 1 + j = i + (j + 1) by omega])
        (by rwa [show i + 1 + m = i + (m + 1) by omega])
      simp [exportLoop, h0, hrest, indexText, List.enumFrom]

theorem digitValue_digitChar (d : Nat) (hd : d < 10) : digitValue (Nat.digitChar d) = d := by
  interval_cases d <;> rfl

theorem parseDecimal_append (xs ys : List Char) :
    parseDecimal (xs ++ ys) = ys.foldl (fun acc c => 10 * acc + digitValue c) (parseDecimal xs) := by
  simp [parseDecimal, List.foldl_append]

theorem toDigitsCore_append (fuel n : Nat) (ds : List Char) :
    Nat.toDigitsCore 10 fuel n ds = Nat.toDigitsCore 10 fuel n [] ++ ds := by
  induction fuel generalizing n ds with
  | zero => simp [Nat.toDigitsCore]
  | succ f ih =>
    simp only [Nat.toDigitsCore]
    split
    · simp
    · rw [ih (n / 10) (Nat.digitChar (n % 10) :: ds), ih (n / 10) [Nat.digitChar (n % 10)]]
      simp

theorem parseDecimal_toDigitsCore (fuel n : Nat) (h : n < fuel) :
    parseDecimal (Nat.toDigitsCore 10 fuel n []) = n := by
  induction fuel generalizing n with
  | zero => omega
  | succ f ih =>
    simp only [Nat.toDigitsCore]
    split
    · rename_i h0
      have : n < 10 := by omega
      simp only [parseDecimal, List.foldl_cons, List.foldl_nil, Nat.mul_zero, Nat.zero_add,
        Nat.mod_eq_of_lt this]
      exact digitValue_digitChar n this
    · rename_i h0
      have hlt : n / 10 < f := by omega
      rw [toDigitsCore_append, parseDecimal_append, ih _ hlt]
      simp [digitValue_digitChar _ (Nat.mod_lt n (by decide))]
      omega

theorem parseDecimal_replicate_zero (k : Nat) (xs : List Char) :
    parseDecimal (List.replicate k '0' ++ xs) = parseDecimal xs := by
  induction k with
  | zero => simp
  | succ k ih =>
    have h0 : digitValue '0' = 0 := rfl
    rw [List.replicate_succ, List.cons_append]
    unfold parseDecimal at ih ⊢
    simp only [List.foldl_cons, h0]
    exact ih

theorem parseDecimal_scFilename (i : Nat) : parseDecimal (scFilename i).data = i := by
  unfold scFilename
  rw [String.data_append, parseDecimal_replicate_zero]
  show parseDecimal (Nat.toDigits 10 i) = i
  exact parseDecimal_toDigitsCore (i + 1) i (Nat.lt_succ_self i)

theorem scFilename_length (i : Nat) (h : i < 1000) : (scFilename i).length = 3 := by
  have hle : (toString i).length ≤ 3 := Nat.repr_length i 3 (by decide) (by simpa using h)
  unfold scFilename
  rw [String.length_append]
  show (List.replicate (3 - (toString i).length) '0').length + (toString i).length = 3
  rw [List.length_replicate]
  omega

theorem scFilename_injective {i j : Nat} (h : scFilename i = scFilename j) : i = j := by
  rw [← parseDecimal_scFilename i, ← parseDecimal_scFilename j, h]

theorem dataPath_injective (dest : QString) {i j : Nat}
    (h : dest ++ "/" ++ scFilename i = dest ++ "/" ++ scFilename j) : i = j := by
  apply scFilename_injective
  have hd := congrArg String.data h
  simp only [String.data_append, List.append_assoc] at hd
  have := List.append_cancel_left (List.append_cancel_left hd)
  exact String.ext this


theorem fileContents_none (path : QString) (events : List Event)
    (h : ∀ bytes, Event.dataWritten path bytes ∉ events) : fileContents path events = none := by
  induction events with
  | nil => rfl
  | cons e rest ih =>
    have hrest := ih (fun bytes hb => h bytes (List.mem_cons_of_mem _ hb))
    simp only [fileContents, hrest]
    cases e with
    | dataWritten p bytes =>
      have hp : p ≠ path := by
        rintro rfl
        exact h bytes (List.mem_cons_self _ _)
      simp [hp]
    | _ => rfl

theorem fileContents_append (path : QString) (xs ys : List Event) :
    fileContents path (xs ++ ys) =
      match fileContents path ys with
      | some bytes => some bytes
      | none => fileContents path xs := by
  induction xs with
  | nil =>
    cases h : fileContents path ys <;> simp [fileContents, h]
  | cons e rest ih =>
    show fileContents path (e :: (rest ++ ys)) = _
    simp only [fileContents]
    rw [ih]
    cases h : fileContents path ys <;> simp

theorem fileContents_dataEvents (env : Env) (dest : QString) (scripts : List Script)
    (k i : Nat) (s : Script) (hs : scripts[i]? = some s) :
    fileContents (dest ++ "/" ++ scFilename (k + i))
      ((scripts.enumFrom k).map
        (fun p => Event.dataWritten (dest ++ "/" ++ scFilename p.1) (env.toUtf8 p.2.data))) =
    some (env.toUtf8 s.data) := by
  induction scripts generalizing k i with
  | nil => simp at hs
  | cons sc rest ih =>
    cases i with
    | zero =>
      simp only [List.getElem?_cons_zero, Option.some.injEq] at hs
      subst hs
      have hnone : fileContents (dest ++ "/" ++ scFilename k)
          ((rest.enumFrom (k + 1)).map
            (fun p => Event.dataWritten (dest ++ "/" ++ scFilename p.1) (env.toUtf8 p.2.data))) =
          none := by
        apply fileContents_none
        intro bytes hb
        obtain ⟨p, hp, heq⟩ := List.mem_map.mp hb
        have hidx : k + 1 ≤ p.1 := List.le_fst_of_mem_enumFrom hp
        simp only [Event.dataWritten.injEq] at heq
        have := dataPath_injective dest heq.1
        omega
      simp [List.enumFrom, fileContents, hnone]
    | succ j =>
      simp only [List.getElem?_cons_succ] at hs
      have := ih (k + 1) j hs
      rw [show k + 1 + j = k + (j + 1) by omega] at this
      simp [List.enumFrom, fileContents, this]

/-- C4 (amended): onExportScripts writes the plain-text layout for an archive whose names
hold no line feed and do not end in a carriage return.  When the index file and every data
file can be opened, the export returns, the last thing written is the index text, whose
lines are exactly the names of the entries in archive order, and for every i the file
named by the zero-padded index of i holds the UTF-8 bytes of the data of entry i. -/
theorem onExportScripts_layout (env : Env) (w w1 : RGSS_MainWindow)
    (hdest : env.existingDirectory ≠ "")
    (hindex : env.openWrite (env.existingDirectory ++ "/index") = true)
    (hstore : storeChangedScripts
      { w with log := w.log ++ [Event.opened (env.existingDirectory ++ "/index")] } = some w1)
    (hfiles : ∀ i, i < w1.archive_.scripts.length →
      env.openWrite (env.existingDirectory ++ "/" ++ scFilename i) = true)
    (hnames : ∀ s ∈ w1.archive_.scripts,
      '\n' ∉ s.name.data ∧ s.name.data.getLast? ≠ some '\r') :
    ∃ w2 text, onExportScripts env w = some w2 ∧
      w2.archive_ = w1.archive_ ∧
      w2.log.getLast? = some (Event.textWritten (env.existingDirectory ++ "/index") text) ∧
      readLines text = w1.archive_.scripts.map Script.name ∧
      ∀ (i : Nat) (s : Script), w1.archive_.scripts[i]? = some s →
        fileContents (env.existingDirectory ++ "/" ++ scFilename i) w2.log =
          some (env.toUtf8 s.data) := by
  have hloop := exportLoop_complete env env.existingDirectory w1.archive_.scripts 0
    (fun j hj => by simpa using hfiles j hj)
  refine ⟨{ w1 with
      log := w1.log ++
        ((w1.archive_.scripts.enumFrom 0).map (fun p =>
          (env.existingDirectory ++ "/" ++ scFilename p.1, env.toUtf8 p.2.data))).map
          (fun f => Event.dataWritten f.1 f.2) ++
        [Event.textWritten (env.existingDirectory ++ "/index") (indexText w1.archive_.scripts)],
      last_valid_folder_impexp := env.absolutePath env.existingDirectory },
    indexText w1.archive_.scripts, ?_, ?_, ?_, readLines_indexText _ hnames, ?_⟩
  · unfold onExportScripts
    simp only [hdest, if_false, hindex, if_true, hstore, hloop]
  · rfl
  · simp
  · intro i s hs
    have hd := fileContents_dataEvents env env.existingDirectory w1.archive_.scripts 0 i s hs
    simp only [Nat.zero_add] at hd
    simp only [List.map_map]
    rw [fileContents_append]
    have htext : fileContents (env.existingDirectory ++ "/" ++ scFilename i)
        [Event.textWritten (env.existingDirectory ++ "/index") (indexText w1.archive_.scripts)] =
        none := rfl
    rw [htext]
    simp only
    have hfun : ((fun f : QString × QByteArray => Event.dataWritten f.1 f.2) ∘
        fun p : Nat × Script =>
          (env.existingDirectory ++ "/" ++ scFilename p.1, env.toUtf8 p.2.data)) =
        fun p : Nat × Script =>
          Event.dataWritten (env.existingDirectory ++ "/" ++ scFilename p.1)
            (env.toUtf8 p.2.data) := rfl
    rw [fileContents_append, hfun, hd]

theorem onExportScripts_layout_witness :
    ∃ w2 text, onExportScripts writableEnv editedWindow = some w2 ∧
      w2.log.getLast? = some (Event.textWritten "/exp/index" text) ∧
      readLines text = ["Main", "Sub"] ∧
      fileContents "/exp/000" w2.log = some [112, 117, 116, 115, 32, 50] ∧
      fileContents "/exp/001" w2.log = some [] := by
  obtain ⟨w2, text, h, -, hlast, hlines, hfile⟩ := onExportScripts_layout writableEnv editedWindow
    { editedWindow with
      archive_ := { editedWindow.archive_ with
        scripts := [{ magic := 10, name := "Main", data := "puts 2", id := 0 },
                    { magic := 0, name := "Sub", data := "", id := 1 }] },
      editor_hash := QHash.empty.insert 0 { text := "puts 2", modified := false },
      log := [Event.opened "/exp/index"] }
    (by decide) (by decide) (by decide) (by intro i _; rfl) (by decide)
  exact ⟨w2, text, h, hlast, hlines,
    hfile 0 { magic := 10, name := "Main", data := "puts 2", id := 0 } rfl,
    hfile 1 { magic := 0, name := "Sub", data := "", id := 1 } rfl⟩

/-- C4 as stated fails for an entry whose name holds a line feed: every file can be opened
and the archive has one entry, yet the exported index has two lines. -/
theorem onExportScripts_layout_counterexample :
    ∃ w2 text, onExportScripts writableEnv twoLineNameWindow = some w2 ∧
      w2.log.getLast? = some (Event.textWritten "/exp/index" text) ∧
      w2.archive_.scripts.map Script.name = ["a\nb"] ∧
      readLines text = ["a", "b"] := by
  refine ⟨_, "a\nb\n", rfl, ?_, ?_, ?_⟩ <;> decide

/-- C6: with the data file of the second of two entries not writable, the export leaves an
index of two lines, `Main` and `Sub`, and a single data file: the index lists `Sub`, for
which no data file was written. -/
theorem onExportScripts_index_lists_unwritten_entry :
    ∃ w2 text, onExportScripts sampleEnv loadedWindow = some w2 ∧
      w2.log = [Event.opened "/exp/index",
        Event.dataWritten "/exp/000" [112, 117, 116, 115, 32, 49],
        Event.textWritten "/exp/index" text] ∧
      readLines text = ["Main", "Sub"] ∧
      fileContents "/exp/001" w2.log = none := by
  refine ⟨_, "Main\nSub\n", rfl, ?_, ?_, ?_⟩ <;> decide

/-- C5: the export that stops at a data file it cannot open shows no message box and, the
log of written files apart, leaves the window exactly as the complete export does. -/
theorem onExportScripts_failure_not_reported :
    ∃ w1 w2, onExportScripts sampleEnv loadedWindow = some w1 ∧
      onExportScripts writableEnv loadedWindow = some w2 ∧
      w1.log.filter Event.isCritical = [] ∧
      fileContents "/exp/001" w1.log = none ∧
      fileContents "/exp/001" w2.log = some [] ∧
      { w1 with log := [] } = { w2 with log := [] } := by
  refine ⟨_, _, rfl, rfl, ?_, ?_, ?_, ?_⟩ <;> decide


theorem onExportScripts_silent (env : Env) (w w1 : RGSS_MainWindow)
    (hdest : env.existingDirectory ≠ "")
    (hindex : env.openWrite (env.existingDirectory ++ "/index") = true)
    (h : onExportScripts env w = some w1) :
    ∃ events, w1.log = w.log ++ events ∧ ∀ e ∈ events, Event.isCritical e = false := by
  unfold onExportScripts at h
  simp only [hdest, if_false, hindex, if_true] at h
  split at h
  · exact absurd h (by simp)
  · rename_i w2 hstore
    simp only [Option.some.injEq] at h
    subst h
    have hlog : w2.log = w.log ++ [Event.opened (env.existingDirectory ++ "/index")] := by
      rw [storeChangedScripts_frame hstore]
    refine ⟨Event.opened (env.existingDirectory ++ "/index") ::
      ((exportLoop env env.existingDirectory 0 w2.archive_.scripts).2.map
        (fun f => Event.dataWritten f.1 f.2) ++
      [Event.textWritten (env.existingDirectory ++ "/index")
        (exportLoop env env.existingDirectory 0 w2.archive_.scripts).1]), ?_, ?_⟩
    · simp [hlog]
    · intro e he
      simp only [List.mem_cons, List.mem_append, List.mem_map, List.mem_singleton] at he
      rcases he with rfl | ⟨f, _, rfl⟩ | rfl | hnil
      · rfl
      · rfl
      · rfl
      · exact absurd hnil (List.not_mem_nil e)

/-! ## The slot of `currentRowChanged` -/

theorem scriptAt_idAt {scripts : List Script} {idx : Int} {s : Script}
    (h : scriptAt scripts idx = some s) : idAt (scripts.map Script.id) idx = some s.id := by
  unfold scriptAt at h
  unfold idAt
  by_cases h0 : 0 ≤ idx
  · simp only [h0, if_true] at h ⊢
    simp [List.getElem?_map, h]
  · simp [h0] at h

theorem idAt_scriptAt {scripts : List Script} {idx : Int} {k : Int}
    (h : idAt (scripts.map Script.id) idx = some k) :
    ∃ s, scriptAt scripts idx = some s ∧ s.id = k := by
  unfold idAt at h
  unfold scriptAt
  by_cases h0 : 0 ≤ idx
  · simp only [h0, if_true, List.getElem?_map] at h ⊢
    cases hs : scripts[idx.toNat]? with
    | none => simp [hs] at h
    | some s => exact ⟨s, rfl, by simpa [hs] using h⟩
  · simp [h0] at h

theorem scriptAt_mem {scripts : List Script} {idx : Int} {s : Script}
    (h : scriptAt scripts idx = some s) : s ∈ scripts := by
  unfold scriptAt at h
  by_cases h0 : 0 ≤ idx
  · simp only [h0, if_true] at h
    exact List.mem_iff_getElem?.mpr ⟨_, h⟩
  · simp [h0] at h

theorem scriptAt_range {scripts : List Script} {idx : Int} {s : Script}
    (h : scriptAt scripts idx = some s) : 0 ≤ idx ∧ idx < scripts.length := by
  unfold scriptAt at h
  by_cases h0 : 0 ≤ idx
  · simp only [h0, if_true] at h
    have := (List.getElem?_eq_some_iff.mp h).1
    exact ⟨h0, by omega⟩
  · simp [h0] at h

theorem getEditorForScript_effect {w w1 : RGSS_MainWindow} {s : Script}
    (h : getEditorForScript w s = some w1) :
    ∃ hash recycled,
      w1 = { w with editor_hash := hash, recycled_editors := recycled } ∧
      (∀ x, x ∈ hash.keys ↔ x = s.id ∨ x ∈ w.editor_hash.keys) ∧
      (∀ e ∈ recycled, e ∈ w.recycled_editors) := by
  unfold getEditorForScript at h
  by_cases hc : w.editor_hash.contains s.id = true
  · simp only [hc, if_true, Option.some.injEq] at h
    subst h
    refine ⟨w.editor_hash, w.recycled_editors, rfl, ?_, fun e he => he⟩
    intro x
    constructor
    · exact Or.inr
    · rintro (rfl | hx)
      · exact (contains_iff_mem_keys _ _).mp hc
      · exact hx
  · simp only [hc] at h
    cases hl : w.recycled_editors.getLast? with
    | none =>
      simp only [hl] at h
      simp at h
      subst h
      exact ⟨_, _, rfl, fun x => mem_keys_insert _ _ _ x, fun e he => he⟩
    | some last =>
      cases last with
      | none => simp [hl] at h
      | some editor =>
        simp only [hl] at h
        simp at h
        subst h
        exact ⟨_, _, rfl, fun x => mem_keys_insert _ _ _ x,
          fun e he => List.mem_of_mem_dropLast he⟩

theorem getEditorForScript_total (w : RGSS_MainWindow) (s : Script)
    (hr : ∀ e ∈ w.recycled_editors, e ≠ none) : ∃ w1, getEditorForScript w s = some w1 := by
  unfold getEditorForScript
  by_cases hc : w.editor_hash.contains s.id = true
  · exact ⟨w, by simp [hc]⟩
  · simp only [hc]
    cases hl : w.recycled_editors.getLast? with
    | none => exact ⟨_, rfl⟩
    | some last =>
      cases last with
      | none => exact absurd rfl (hr none (List.mem_of_mem_getLast? hl))
      | some editor => exact ⟨_, rfl⟩

theorem onScriptIndexChange_effect {w w1 : RGSS_MainWindow} {idx : Int}
    (h : onScriptIndexChange w idx = some w1) : SlotEffect (some idx) w w1 := by
  unfold onScriptIndexChange at h
  by_cases hi : idx = -1
  · simp only [hi, if_true, Option.some.injEq] at h
    subst h
    exact ⟨w.editor_hash, w.recycled_editors, -1, rfl, fun e he => he,
      Or.inl ⟨fun x => Iff.rfl, Or.inr (by rw [hi])⟩⟩
  · simp only [hi, if_false] at h
    cases hs : scriptAt w.archive_.scripts idx with
    | none => simp [hs] at h
    | some s =>
      simp only [hs] at h
      cases hg : getEditorForScript w s with
      | none => simp [hg] at h
      | some w2 =>
        simp only [hg, Option.some.injEq] at h
        subst h
        obtain ⟨hash, recycled, rfl, hk, hr⟩ := getEditorForScript_effect hg
        exact ⟨hash, recycled, idx, rfl, hr, Or.inr ⟨idx, s, rfl, hs, hk⟩⟩

theorem currentRowChanged_effect {w w1 : RGSS_MainWindow} {sig : Option Int}
    (h : currentRowChanged w sig = some w1) : SlotEffect sig w w1 := by
  cases sig with
  | none =>
    simp only [currentRowChanged, Option.some.injEq] at h
    subst h
    exact ⟨w.editor_hash, w.recycled_editors, w.current_row_, rfl, fun e he => he,
      Or.inl ⟨fun x => Iff.rfl, Or.inl rfl⟩⟩
  | some idx => exact onScriptIndexChange_effect h

/-! ## The invariant: saving, exporting, closing -/

theorem Inv_of_same {w w1 : RGSS_MainWindow} (hinv : Inv w)
    (hids : ids w1 = ids w)
    (hkeys : ∀ x, x ∈ w1.editor_hash.keys ↔ x ∈ w.editor_hash.keys)
    (hlist : w1.script_list_ = w.script_list_)
    (hrec : ∀ e ∈ w1.recycled_editors, e ∈ w.recycled_editors)
    (hen : w1.editing_enabled = w.editing_enabled)
    (hop : w1.archive_opened = w.archive_opened) : Inv w1 := by
  have hlen : w1.archive_.scripts.length = w.archive_.scripts.length := by
    have := congrArg List.length hids
    simpa [ids] using this
  refine ⟨?_, ?_, ?_, ?_, ?_, ?_⟩
  · intro k hk
    rw [hids]
    exact hinv.keys_in_archive k ((hkeys k).mp hk)
  · rw [hlist, hlen]
    exact hinv.list_length
  · intro k hk
    rw [hids, hlist] at hk
    exact (hkeys k).mpr (hinv.current_has_editor k hk)
  · intro e he
    exact hinv.recycled_not_null e (hrec e he)
  · intro he
    rw [hen] at he
    obtain ⟨h1, h2⟩ := hinv.disabled_empty he
    constructor
    · apply List.eq_nil_iff_forall_not_mem.mpr
      intro x hx
      have := (hkeys x).mp hx
      rw [h1] at this
      exact absurd this (List.not_mem_nil x)
    · apply List.eq_nil_of_length_eq_zero
      rw [hlen, h2]
      rfl
  · intro ho
    rw [hop] at ho
    rw [hen]
    exact hinv.closed_disabled ho

theorem storeChangedScripts_Inv {w w1 : RGSS_MainWindow} (hinv : Inv w)
    (h : storeChangedScripts w = some w1) : Inv w1 := by
  obtain ⟨hh, -, -, hk⟩ := storeChangedScripts_keeps h
  have hf := storeChangedScripts_frame h
  apply Inv_of_same hinv (ids_of_header hh) (fun x => by rw [hk])
  · rw [hf]
  · rw [hf]; exact fun e he => he
  · rw [hf]
  · rw [hf]

theorem Inv_log {w : RGSS_MainWindow} (hinv : Inv w) (log : List Event) :
    Inv { w with log := log } :=
  Inv_of_same hinv rfl (fun _ => Iff.rfl) rfl (fun _ he => he) rfl rfl

theorem saveScriptArchiveAs_Inv {env : Env} {file : QString} {w : RGSS_MainWindow}
    {r : Bool × RGSS_MainWindow} (hinv : Inv w)
    (h : saveScriptArchiveAs env file w = some r) : Inv r.2 := by
  unfold saveScriptArchiveAs at h
  simp only at h
  split at h
  · simp only [Option.some.injEq] at h
    subst h
    exact Inv_log hinv _
  · split at h
    · split at h
      · exact absurd h (by simp)
      · rename_i w1 hstore
        have h1 := storeChangedScripts_Inv (Inv_log hinv _) hstore
        split at h
        · simp only [Option.some.injEq] at h
          subst h
          exact Inv_of_same h1 rfl (fun _ => Iff.rfl) rfl (fun _ he => he) rfl rfl
        · simp only [Option.some.injEq] at h
          subst h
          exact Inv_of_same h1 rfl (fun _ => Iff.rfl) rfl (fun _ he => he) rfl rfl
    · simp only [Option.some.injEq] at h
      subst h
      exact Inv_log hinv _

theorem verifySaveDiscard_Inv {env : Env} {w : RGSS_MainWindow}
    {r : Bool × RGSS_MainWindow} (hinv : Inv w)
    (h : verifySaveDiscard env w = some r) : Inv r.2 := by
  unfold verifySaveDiscard at h
  split at h
  · split at h
    · exact saveScriptArchiveAs_Inv hinv h
    all_goals
      simp only [Option.some.injEq] at h
      subst h
      exact hinv
  · simp only [Option.some.injEq] at h
    subst h
    exact hinv

theorem onExportScripts_Inv {env : Env} {w w1 : RGSS_MainWindow} (hinv : Inv w)
    (h : onExportScripts env w = some w1) : Inv w1 := by
  unfold onExportScripts at h
  simp only at h
  split at h
  · simp only [Option.some.injEq] at h
    subst h
    exact hinv
  · split at h
    · split at h
      · exact absurd h (by simp)
      · rename_i w2 hstore
        have h1 := storeChangedScripts_Inv (Inv_log hinv _) hstore
        simp only [Option.some.injEq] at h
        subst h
        exact Inv_of_same h1 rfl (fun _ => Iff.rfl) rfl (fun _ he => he) rfl rfl
    · simp only [Option.some.injEq] at h
      subst h
      exact Inv_log hinv _

theorem closeScriptArchive_eq (w : RGSS_MainWindow) :
    closeScriptArchive w = some
      { w with
        recycled_editors := w.recycled_editors ++ w.editor_hash.entries.map (fun e => some e.2),
        editor_hash := QHash.empty,
        open_path := "",
        archive_ := { w.archive_ with scripts := [] },
        current_row_ := -1,
        script_list_ := { items := [], current := -1 },
        editing_enabled := false,
        archive_opened := false,
        data_modified_ := false } := by
  unfold closeScriptArchive
  simp only [onScriptIndexChange, if_true, QListWidget.clear]
  by_cases hc : w.script_list_.current = -1
  · simp [hc, currentRowChanged, enableEditing, setDataModified]
  · simp [hc, currentRowChanged, onScriptIndexChange, enableEditing, setDataModified]

theorem closeScriptArchive_Inv {w w1 : RGSS_MainWindow} (hinv : Inv w)
    (h : closeScriptArchive w = some w1) :
    Inv w1 ∧ w1.editing_enabled = false := by
  rw [closeScriptArchive_eq, Option.some.injEq] at h
  subst h
  refine ⟨⟨?_, rfl, ?_, ?_, ?_, ?_⟩, rfl⟩
  · intro k hk
    exact absurd hk (List.not_mem_nil k)
  · intro k hk
    simp [idAt, ids] at hk
  · intro e he
    rcases List.mem_append.mp he with h1 | h1
    · exact hinv.recycled_not_null e h1
    · obtain ⟨x, _, rfl⟩ := List.mem_map.mp h1
      simp
  · intro _
    exact ⟨rfl, rfl⟩
  · intro _
    rfl
theorem slot_core {w0 w1 : RGSS_MainWindow} {sig : Option Int}
    (h : currentRowChanged w0 sig = some w1)
    (hkeys : ∀ k ∈ w0.editor_hash.keys, k ∈ ids w0)
    (hrec : ∀ e ∈ w0.recycled_editors, e ≠ none)
    (hnone : sig = none →
      ∀ k, idAt (ids w0) w0.script_list_.current = some k → k ∈ w0.editor_hash.keys)
    (hsome : ∀ t, sig = some t → w0.script_list_.current = t) :
    (∀ k ∈ w1.editor_hash.keys, k ∈ ids w1) ∧
      (∀ k, idAt (ids w1) w1.script_list_.current = some k → k ∈ w1.editor_hash.keys) ∧
      (∀ e ∈ w1.recycled_editors, e ≠ none) ∧
      w1.archive_ = w0.archive_ ∧ w1.script_list_ = w0.script_list_ ∧
      w1.editing_enabled = w0.editing_enabled ∧ w1.archive_opened = w0.archive_opened := by
  obtain ⟨hash, recycled, row, rfl, hr, hcase⟩ := currentRowChanged_effect h
  refine ⟨?_, ?_, fun e he => hrec e (hr e he), rfl, rfl, rfl, rfl⟩
  · intro k hk
    rcases hcase with ⟨hsame, _⟩ | ⟨idx, s, _, hs, hk1⟩
    · exact hkeys k ((hsame k).mp hk)
    · rcases (hk1 k).mp hk with rfl | hk2
      · exact List.mem_map.mpr ⟨s, scriptAt_mem hs, rfl⟩
      · exact hkeys k hk2
  · intro k hk
    simp only [ids] at hk
    rcases hcase with ⟨hsame, hsig | hsig⟩ | ⟨idx, s, hsig, hs, hk1⟩
    · exact (hsame k).mpr (hnone hsig k hk)
    · rw [hsome _ hsig] at hk
      simp [idAt] at hk
    · rw [hsome _ hsig, scriptAt_idAt hs, Option.some.injEq] at hk
      exact (hk1 k).mpr (Or.inl hk.symm)

theorem foldl_addItem (scripts : List Script) (l : QListWidget) :
    scripts.foldl (fun l s => l.addItem s.name) l =
      { items := l.items ++ scripts.map Script.name, current := l.current } := by
  induction scripts generalizing l with
  | nil => simp
  | cons s rest ih =>
    rw [List.foldl_cons, ih]
    simp [QListWidget.addItem]

theorem setCurrentRow_items (l : QListWidget) (row : Int) :
    (l.setCurrentRow row).1.items = l.items := by
  unfold QListWidget.setCurrentRow
  simp only
  generalize (if 0 ≤ row ∧ row < (l.items.length : Int) then row else -1) = r
  by_cases hr : r = l.current <;> simp [hr]

theorem setCurrentRow_none (l : QListWidget) (row : Int)
    (h : (l.setCurrentRow row).2 = none) : (l.setCurrentRow row).1 = l := by
  unfold QListWidget.setCurrentRow at h ⊢
  simp only at h ⊢
  generalize (if 0 ≤ row ∧ row < (l.items.length : Int) then row else -1) = r at h ⊢
  by_cases hr : r = l.current
  · simp [hr]
  · simp [hr] at h

theorem setCurrentRow_some (l : QListWidget) (row t : Int)
    (h : (l.setCurrentRow row).2 = some t) : (l.setCurrentRow row).1.current = t := by
  unfold QListWidget.setCurrentRow at h ⊢
  simp only at h ⊢
  generalize (if 0 ≤ row ∧ row < (l.items.length : Int) then row else -1) = r at h ⊢
  by_cases hr : r = l.current
  · simp [hr] at h
  · simpa [hr] using h

theorem selectRow_Inv {row : Int} {w w1 : RGSS_MainWindow} (hinv : Inv w)
    (hen : w.editing_enabled = true) (h : selectRow row w = some w1) : Inv w1 := by
  unfold selectRow at h
  simp only at h
  obtain ⟨h1, h2, h3, ha, hl, he, ho⟩ := slot_core h hinv.keys_in_archive hinv.recycled_not_null
    (fun hsig k hk => by
      simp only [setCurrentRow_none _ _ hsig] at hk
      exact hinv.current_has_editor k hk)
    (fun t hsig => setCurrentRow_some _ _ _ hsig)
  refine ⟨h1, ?_, h2, h3, ?_, ?_⟩
  · rw [hl, ha]
    simp only [setCurrentRow_items]
    exact hinv.list_length
  · intro hf
    rw [he] at hf
    simp only at hf
    rw [hen] at hf
    exact absurd hf (by simp)
  · intro hf
    rw [ho] at hf
    rw [he]
    exact hinv.closed_disabled hf

theorem setupLoadedArchive_Inv {w w1 : RGSS_MainWindow}
    (hkeys : w.editor_hash.keys = [])
    (hrec : ∀ e ∈ w.recycled_editors, e ≠ none)
    (h : setupLoadedArchive w = some w1) :
    Inv w1 ∧ w1.archive_ = w.archive_ := by
  unfold setupLoadedArchive at h
  simp only at h
  split at h
  · exact absurd h (by simp)
  · rename_i wA hA
    split at h
    · exact absurd h (by simp)
    · rename_i wB hB
      simp only [Option.some.injEq] at h
      subst h
      obtain ⟨a1, -, a3, aa, al, ae, ao⟩ := slot_core hA
        (fun k hk => by simp only [hkeys] at hk; exact absurd hk (List.not_mem_nil k))
        hrec
        (fun _ k hk => by simp [QListWidget.clear, idAt] at hk)
        (fun t hsig => by
          simp only [QListWidget.clear] at hsig ⊢
          split at hsig
          · exact absurd hsig (by simp)
          · simp only [Option.some.injEq] at hsig
            exact hsig)
      have hfill : (wA.archive_.scripts.foldl (fun l s => l.addItem s.name) wA.script_list_) =
          { items := wA.archive_.scripts.map Script.name, current := -1 } := by
        rw [foldl_addItem, al]
        simp [QListWidget.clear]
      rw [hfill] at hB
      obtain ⟨b1, b2, b3, ba, bl, be, bo⟩ := slot_core hB a1 a3
        (fun hsig k hk => by
          simp only [setCurrentRow_none _ _ hsig] at hk
          simp [idAt] at hk)
        (fun t hsig => setCurrentRow_some _ _ _ hsig)
      refine ⟨⟨b1, ?_, b2, b3, ?_, ?_⟩, ?_⟩
      · show wB.script_list_.items.length = wB.archive_.scripts.length
        rw [bl, ba]
        simp [setCurrentRow_items]
      · intro hf
        simp [enableEditing] at hf
      · intro hf
        simp [enableEditing] at hf
      · show wB.archive_ = w.archive_
        rw [ba, aa]
theorem loadScriptArchive_Inv {env : Env} {file : QString} {show_errors : Bool}
    {w w1 : RGSS_MainWindow} (hinv : Inv w) (hen : w.editing_enabled = false)
    (h : loadScriptArchive env file show_errors w = some w1) : Inv w1 := by
  unfold loadScriptArchive at h
  split at h
  · simp only [Option.some.injEq] at h
    subst h
    split
    · exact Inv_log hinv _
    · exact hinv
  · split at h
    · simp only [Option.some.injEq] at h
      subst h
      split
      · exact Inv_log hinv _
      · exact hinv
    · simp only at h
      split at h
      · exact absurd h (by simp)
      · rename_i w2 hsetup
        simp only [Option.some.injEq] at h
        subst h
        have hk := (hinv.disabled_empty hen).1
        obtain ⟨h2, -⟩ := setupLoadedArchive_Inv (by exact hk)
          (by exact hinv.recycled_not_null) hsetup
        exact Inv_of_same h2 rfl (fun _ => Iff.rfl) rfl (fun _ he => he) rfl rfl

theorem constructed_Inv (archive_opened : Bool) (f1 f2 : QString) :
    Inv (constructed archive_opened f1 f2) ∧
      (constructed archive_opened f1 f2).editing_enabled = false := by
  refine ⟨⟨?_, rfl, ?_, ?_, ?_, ?_⟩, rfl⟩
  · intro k hk
    exact absurd hk (List.not_mem_nil k)
  · intro k hk
    simp [idAt, ids, constructed] at hk
  · intro e he
    exact absurd he (List.not_mem_nil e)
  · intro _
    exact ⟨rfl, rfl⟩
  · intro _
    rfl

theorem construct_Inv {env : Env} {path_to_load last_open_path : QString}
    {archive_opened : Bool} {f1 f2 : QString} {w : RGSS_MainWindow}
    (h : construct env path_to_load last_open_path (constructed archive_opened f1 f2) = some w) :
    Inv w := by
  obtain ⟨hinv, hen⟩ := constructed_Inv archive_opened f1 f2
  unfold construct at h
  split at h
  · exact loadScriptArchive_Inv hinv hen h
  · split at h
    · exact loadScriptArchive_Inv hinv hen h
    · simp only [Option.some.injEq] at h
      subst h
      exact hinv

theorem closeIfOpened_Inv {w w2 : RGSS_MainWindow} (hinv : Inv w)
    (h : (if w.archive_opened then closeScriptArchive w else some w) = some w2) :
    Inv w2 ∧ w2.editing_enabled = false := by
  by_cases ho : w.archive_opened = true
  · simp only [ho, if_true] at h
    exact closeScriptArchive_Inv hinv h
  · have hof : w.archive_opened = false := by simpa using ho
    simp only [hof] at h
    simp only [Bool.false_eq_true, if_false, Option.some.injEq] at h
    subst h
    exact ⟨hinv, hinv.closed_disabled hof⟩

theorem onArchiveDropped_Inv {env : Env} {filename : QString} {w w1 : RGSS_MainWindow}
    (hinv : Inv w) (h : onArchiveDropped env filename w = some w1) : Inv w1 := by
  unfold onArchiveDropped at h
  split at h
  · exact absurd h (by simp)
  · rename_i wv hv
    simp only [Option.some.injEq] at h
    subst h
    exact verifySaveDiscard_Inv hinv hv
  · rename_i wv hv
    have hv1 := verifySaveDiscard_Inv hinv hv
    split at h
    · exact absurd h (by simp)
    · rename_i w2 hc
      obtain ⟨h2, he2⟩ := closeIfOpened_Inv hv1 hc
      exact loadScriptArchive_Inv h2 he2 h

theorem onOpenArchive_Inv {env : Env} {w w1 : RGSS_MainWindow}
    (hinv : Inv w) (h : onOpenArchive env w = some w1) : Inv w1 := by
  unfold onOpenArchive at h
  split at h
  · exact absurd h (by simp)
  · rename_i wv hv
    simp only [Option.some.injEq] at h
    subst h
    exact verifySaveDiscard_Inv hinv hv
  · rename_i wv hv
    have hv1 := verifySaveDiscard_Inv hinv hv
    split at h
    · simp only [Option.some.injEq] at h
      subst h
      exact hv1
    · split at h
      · exact absurd h (by simp)
      · rename_i w2 hc
        obtain ⟨h2, he2⟩ := closeIfOpened_Inv hv1 hc
        exact loadScriptArchive_Inv h2 he2 h

theorem onCloseArchive_Inv {env : Env} {w w1 : RGSS_MainWindow}
    (hinv : Inv w) (h : onCloseArchive env w = some w1) : Inv w1 := by
  unfold onCloseArchive at h
  split at h
  · exact absurd h (by simp)
  · rename_i wv hv
    simp only [Option.some.injEq] at h
    subst h
    exact verifySaveDiscard_Inv hinv hv
  · rename_i wv hv
    exact (closeScriptArchive_Inv (verifySaveDiscard_Inv hinv hv) h).1

theorem onSaveArchiveAs_Inv {env : Env} {w : RGSS_MainWindow} {r : Bool × RGSS_MainWindow}
    (hinv : Inv w) (h : onSaveArchiveAs env w = some r) : Inv r.2 := by
  unfold onSaveArchiveAs at h
  split at h
  · simp only [Option.some.injEq] at h
    subst h
    exact hinv
  · exact saveScriptArchiveAs_Inv hinv h

theorem onSaveArchive_Inv {env : Env} {w w1 : RGSS_MainWindow}
    (hinv : Inv w) (h : onSaveArchive env w = some w1) : Inv w1 := by
  unfold onSaveArchive at h
  split at h
  · obtain ⟨r, hr, rfl⟩ := Option.map_eq_some'.mp h
    exact onSaveArchiveAs_Inv hinv hr
  · obtain ⟨r, hr, rfl⟩ := Option.map_eq_some'.mp h
    exact saveScriptArchiveAs_Inv hinv hr

theorem renumber_length (start : Int) (l : List Script) :
    (renumber start l).length = l.length := by
  induction l generalizing start with
  | nil => rfl
  | cons s rest ih => simp [renumber, ih]

theorem onImportScripts_Inv {env : Env} {w w1 : RGSS_MainWindow}
    (hinv : Inv w) (h : onImportScripts env w = some w1) : Inv w1 := by
  unfold onImportScripts at h
  split at h
  · exact absurd h (by simp)
  · rename_i wv hv
    simp only [Option.some.injEq] at h
    subst h
    exact verifySaveDiscard_Inv hinv hv
  · rename_i wv hv
    have hv1 := verifySaveDiscard_Inv hinv hv
    simp only at h
    split at h
    · simp only [Option.some.injEq] at h
      subst h
      exact hv1
    · split at h
      · simp only [Option.some.injEq] at h
        subst h
        exact Inv_log hv1 _
      · split at h
        · simp only [Option.some.injEq] at h
          subst h
          exact Inv_log hv1 _
        · split at h
          · exact absurd h (by simp)
          · rename_i w2 hc
            obtain ⟨h2, -⟩ := closeScriptArchive_Inv hv1 hc
            have hk2 : w2.editor_hash.keys = [] := by
              rw [closeScriptArchive_eq, Option.some.injEq] at hc
              subst hc
              rfl
            split at h
            · exact absurd h (by simp)
            · rename_i w4 hsetup
              simp only [Option.some.injEq] at h
              subst h
              obtain ⟨h4, -⟩ := setupLoadedArchive_Inv (w := { w2 with
                  archive_ := ({ w2.archive_ with scripts := _ }).rehashIDs, open_path := "" })
                hk2 h2.recycled_not_null hsetup
              exact Inv_of_same h4 rfl (fun _ => Iff.rfl) rfl (fun _ he => he) rfl rfl
theorem insertItem_length (l : QListWidget) (row : Int) (label : QString) :
    (l.insertItem row label).items.length = l.items.length + 1 := by
  unfold QListWidget.insertItem
  simp only [List.length_append, List.length_cons, List.length_take, List.length_drop]
  have : clampIndex row l.items.length ≤ l.items.length := by
    unfold clampIndex
    omega
  omega

theorem insert_select_silent (l : QListWidget) (row : Int)
    (h : ((l.insertItem row "").setCurrentRow row).2 = none) :
    ((l.insertItem row "").setCurrentRow row).1.current = -1 := by
  rw [setCurrentRow_none _ _ h]
  unfold QListWidget.setCurrentRow at h
  simp only at h
  have hlen := insertItem_length l row ""
  by_cases hr : 0 ≤ row ∧ row < ((l.insertItem row "").items.length : Int)
  · simp only [hr, and_self, if_true] at h
    by_cases hc : row = (l.insertItem row "").current
    · exfalso
      unfold QListWidget.insertItem at hc
      simp only at hc
      have hclamp : (clampIndex row l.items.length : Int) = row := by
        unfold clampIndex
        omega
      rw [hclamp] at hc
      split at hc <;> omega
    · simp [hc] at h
  · simp only [hr, if_false] at h
    by_cases hc : -1 = (l.insertItem row "").current
    · exact hc.symm
    · simp [hc] at h

theorem mem_insert_of_mem {α : Type} (l : List α) (i : Nat) (a x : α) (h : x ∈ l) :
    x ∈ l.take i ++ a :: l.drop i := by
  have : x ∈ l.take i ++ l.drop i := by rw [List.take_append_drop]; exact h
  rcases List.mem_append.mp this with h1 | h1
  · exact List.mem_append_left _ h1
  · exact List.mem_append_right _ (List.mem_cons_of_mem _ h1)

theorem onInsertScript_Inv {w w1 : RGSS_MainWindow} (hinv : Inv w)
    (hen : w.editing_enabled = true) (h : onInsertScript w = some w1) : Inv w1 := by
  unfold onInsertScript at h
  simp only at h
  split at h
  · exact absurd h (by simp)
  · rename_i wB hB
    simp only [Option.some.injEq] at h
    subst h
    obtain ⟨h1, h2, h3, ha, hl, he, ho⟩ := slot_core hB
      (fun k hk => by
        obtain ⟨s, hs, hsk⟩ := List.mem_map.mp (hinv.keys_in_archive k hk)
        exact List.mem_map.mpr ⟨s, mem_insert_of_mem _ _ _ _ hs, hsk⟩)
      hinv.recycled_not_null
      (fun hsig k hk => by
        simp only [insert_select_silent _ _ hsig] at hk
        simp [idAt] at hk)
      (fun t hsig => setCurrentRow_some _ _ _ hsig)
    refine ⟨h1, ?_, h2, h3, ?_, ?_⟩
    · show wB.script_list_.items.length = wB.archive_.scripts.length
      rw [hl, ha]
      simp only [setCurrentRow_items, insertItem_length, ScriptArchive.insertScript,
        List.length_append, List.length_cons, List.length_take, List.length_drop]
      have := hinv.list_length
      have hc : clampIndex (max w.current_row_ 0) w.archive_.scripts.length ≤
          w.archive_.scripts.length := by
        unfold clampIndex
        omega
      omega
    · intro hf
      have : wB.editing_enabled = false := hf
      rw [he] at this
      simp only at this
      rw [hen] at this
      exact absurd this (by simp)
    · intro hf
      have h6 : wB.archive_opened = false := hf
      rw [ho] at h6
      show wB.editing_enabled = false
      rw [he]
      exact hinv.closed_disabled h6

theorem Inv_of_similar {w w1 : RGSS_MainWindow} (hinv : Inv w)
    (hids : ids w1 = ids w)
    (hkeys : ∀ x, x ∈ w1.editor_hash.keys ↔ x ∈ w.editor_hash.keys)
    (hitems : w1.script_list_.items.length = w.script_list_.items.length)
    (hcur : w1.script_list_.current = w.script_list_.current)
    (hrec : ∀ e ∈ w1.recycled_editors, e ∈ w.recycled_editors)
    (hen : w1.editing_enabled = w.editing_enabled)
    (hop : w1.archive_opened = w.archive_opened) : Inv w1 := by
  have hlen : w1.archive_.scripts.length = w.archive_.scripts.length := by
    have := congrArg List.length hids
    simpa [ids] using this
  refine ⟨?_, ?_, ?_, ?_, ?_, ?_⟩
  · intro k hk
    rw [hids]
    exact hinv.keys_in_archive k ((hkeys k).mp hk)
  · rw [hitems, hlen]
    exact hinv.list_length
  · intro k hk
    rw [hids, hcur] at hk
    exact (hkeys k).mpr (hinv.current_has_editor k hk)
  · intro e he
    exact hinv.recycled_not_null e (hrec e he)
  · intro he
    rw [hen] at he
    obtain ⟨h1, h2⟩ := hinv.disabled_empty he
    constructor
    · apply List.eq_nil_iff_forall_not_mem.mpr
      intro x hx
      have := (hkeys x).mp hx
      rw [h1] at this
      exact absurd this (List.not_mem_nil x)
    · apply List.eq_nil_of_length_eq_zero
      rw [hlen, h2]
      rfl
  · intro ho
    rw [hop] at ho
    rw [hen]
    exact hinv.closed_disabled ho

theorem setNameAt_ids (name : QString) (p : Nat) (l : List Script) :
    (setNameAt name p l).map Script.id = l.map Script.id := by
  induction l generalizing p with
  | nil => cases p <;> rfl
  | cons a rest ih =>
    cases p with
    | zero => simp [setNameAt]
    | succ q => simp [setNameAt, ih q]

theorem onScriptNameEdited_Inv {name : QString} {w w1 : RGSS_MainWindow} (hinv : Inv w)
    (h : onScriptNameEdited name w = some w1) : Inv w1 := by
  unfold onScriptNameEdited at h
  split at h
  · exact absurd h (by simp)
  · rename_i list hlist
    split at h
    · simp only [Option.some.injEq] at h
      subst h
      unfold QListWidget.setCurrentText at hlist
      split at hlist
      · simp only [Option.some.injEq] at hlist
        subst hlist
        apply Inv_of_similar hinv
        · simp [ids, setDataModified, setNameAt_ids]
        · exact fun _ => Iff.rfl
        · simp [setDataModified]
        · rfl
        · exact fun _ he => he
        · rfl
        · rfl
      · exact absurd hlist (by simp)
    · exact absurd h (by simp)

theorem editText_Inv (key : Int) (text : QString) {w : RGSS_MainWindow} (hinv : Inv w) :
    Inv (editText key text w) := by
  unfold editText
  cases hv : w.editor_hash.value key with
  | none => exact hinv
  | some e =>
    simp only
    have hk : key ∈ w.editor_hash.keys := by
      apply (contains_iff_mem_keys _ _).mp
      simp [QHash.contains, hv]
    refine Inv_of_similar hinv rfl ?_ rfl rfl (fun _ he => he) rfl rfl
    intro x
    simp only [onScriptEditorModified, setDataModified]
    rw [mem_keys_insert]
    constructor
    · rintro (rfl | hx)
      · exact hk
      · exact hx
    · exact Or.inr
theorem takeItem_current (l : QListWidget) (hc0 : 0 ≤ l.current)
    (hlt : l.current < l.items.length) :
    l.takeItem l.current =
      if l.current + 1 < l.items.length then
        ({ items := l.items.eraseIdx l.current.toNat, current := l.current },
          some (l.current + 1))
      else if 0 < l.current then
        ({ items := l.items.eraseIdx l.current.toNat, current := l.current - 1 },
          some (l.current - 1))
      else
        ({ items := l.items.eraseIdx l.current.toNat, current := -1 }, some (-1)) := by
  unfold QListWidget.takeItem
  simp [hc0, hlt]

theorem mem_eraseIdx_of_getElem? {α : Type} (l : List α) (j m : Nat) (x : α)
    (hx : l[m]? = some x) (hm : m ≠ j) : x ∈ l.eraseIdx j := by
  apply List.mem_iff_getElem?.mpr
  by_cases hlt : m < j
  · exact ⟨m, by rw [List.getElem?_eraseIdx]; simp [hlt, hx]⟩
  · refine ⟨m - 1, ?_⟩
    rw [List.getElem?_eraseIdx]
    have h1 : ¬ (m - 1 < j) := by omega
    have h2 : m - 1 + 1 = m := by omega
    simp [h1, h2, hx]

theorem scriptAt_toNat {scripts : List Script} {idx : Int} {s : Script}
    (h : scriptAt scripts idx = some s) : scripts[idx.toNat]? = some s := by
  unfold scriptAt at h
  by_cases h0 : 0 ≤ idx
  · simpa [h0] using h
  · simp [h0] at h

theorem onDeleteScript_Inv {w w1 : RGSS_MainWindow} (hinv : Inv w)
    (h : onDeleteScript w = some w1) : Inv w1 := by
  unfold onDeleteScript at h
  split at h
  · simp only [Option.some.injEq] at h
    subst h
    exact hinv
  · rename_i hlen0
    simp only at h
    split at h
    · exact absurd h (by simp)
    · rename_i script hscript
      split at h
      · exact absurd h (by simp)
      · rename_i w2 hslot
        simp only [Option.some.injEq] at h
        subst h
        obtain ⟨hc0, hcn⟩ := scriptAt_range hscript
        have hj := scriptAt_toNat hscript
        have hitems : w.script_list_.items.length = w.archive_.scripts.length :=
          hinv.list_length
        have hidkey : script.id ∈ w.editor_hash.keys :=
          hinv.current_has_editor _ (scriptAt_idAt hscript)
        obtain ⟨hash, recycled, row, rfl, hr, hcase⟩ := currentRowChanged_effect hslot
        have htake := takeItem_current w.script_list_ hc0 (by rw [hitems]; exact hcn)
        have hkeep : ∀ x, x ∈ w.editor_hash.keys → x ≠ script.id →
            x ∈ (w.archive_.scripts.eraseIdx w.script_list_.current.toNat).map Script.id := by
          intro x hx hne
          obtain ⟨s, hs, hsx⟩ := List.mem_map.mp (hinv.keys_in_archive x hx)
          obtain ⟨m, hm⟩ := List.mem_iff_getElem?.mp hs
          have hmj : m ≠ w.script_list_.current.toNat := by
            rintro rfl
            rw [hj, Option.some.injEq] at hm
            rw [← hm] at hsx
            exact hne hsx.symm
          exact List.mem_map.mpr ⟨s, mem_eraseIdx_of_getElem? _ _ _ _ hm hmj, hsx⟩
        refine ⟨?_, ?_, ?_, ?_, ?_, ?_⟩
        · intro k hk
          show k ∈ (w.archive_.scripts.eraseIdx w.script_list_.current.toNat).map Script.id
          have hk' : k ∈ hash.keys := hk
          rcases hcase with ⟨hsame, _⟩ | ⟨idx, s, hsig, hs, hk1⟩
          · obtain ⟨ha, hb⟩ := (mem_keys_remove _ _ _).mp ((hsame k).mp hk')
            exact hkeep k ha hb
          · rcases (hk1 k).mp hk' with rfl | hk2
            · have hs' : scriptAt w.archive_.scripts idx = some s := hs
              obtain ⟨hi0, _⟩ := scriptAt_range hs'
              have hne : idx.toNat ≠ w.script_list_.current.toNat := by
                have hsig' : (w.script_list_.takeItem w.script_list_.current).2 = some idx :=
                  hsig
                rw [htake] at hsig'
                split at hsig'
                · simp only [Option.some.injEq] at hsig'; omega
                · split at hsig'
                  · simp only [Option.some.injEq] at hsig'; omega
                  · simp only [Option.some.injEq] at hsig'; omega
              exact List.mem_map.mpr
                ⟨s, mem_eraseIdx_of_getElem? _ _ _ _ (scriptAt_toNat hs') hne, rfl⟩
            · obtain ⟨ha, hb⟩ := (mem_keys_remove _ _ _).mp hk2
              exact hkeep k ha hb
        · show (w.script_list_.takeItem w.script_list_.current).1.items.length =
            (w.archive_.scripts.eraseIdx w.script_list_.current.toNat).length
          rw [htake]
          have hlt : w.script_list_.current.toNat < w.archive_.scripts.length := by omega
          have hlt2 : w.script_list_.current.toNat < w.script_list_.items.length := by omega
          split
          · simp [List.length_eraseIdx, hlt, hlt2, hitems]
          · split <;> simp [List.length_eraseIdx, hlt, hlt2, hitems]
        · intro k hk
          show k ∈ hash.keys
          have hk' : idAt ((w.archive_.scripts.eraseIdx w.script_list_.current.toNat).map
              Script.id) (w.script_list_.takeItem w.script_list_.current).1.current = some k := hk
          have hsigdef : ∀ idx, (w.script_list_.takeItem w.script_list_.current).2 = some idx →
              ∃ s, scriptAt w.archive_.scripts idx = some s ∧ s.id ∈ hash.keys ∨ idx = -1 := by
            intro idx hidx
            rcases hcase with ⟨_, hs1 | hs1⟩ | ⟨idx2, s, hsig, hs, hk1⟩
            · have : (w.script_list_.takeItem w.script_list_.current).2 = none := hs1
              rw [this] at hidx
              exact absurd hidx (by simp)
            · have : (w.script_list_.takeItem w.script_list_.current).2 = some (-1) := hs1
              rw [this, Option.some.injEq] at hidx
              exact ⟨script, Or.inr hidx.symm⟩
            · have : (w.script_list_.takeItem w.script_list_.current).2 = some idx2 := hsig
              rw [this, Option.some.injEq] at hidx
              subst hidx
              exact ⟨s, Or.inl ⟨hs, (hk1 s.id).mpr (Or.inl rfl)⟩⟩
          rw [htake] at hk' hsigdef
          split at hk'
          · rename_i hnext
            simp only [if_pos hnext] at hsigdef
            obtain ⟨s, hs⟩ := hsigdef _ rfl
            rcases hs with ⟨hs, hmem⟩ | hneg
            · simp only [idAt, hc0, if_true, List.getElem?_map, List.getElem?_eraseIdx,
                Nat.lt_irrefl, if_false] at hk'
              have hs2 := scriptAt_toNat hs
              have : (w.script_list_.current + 1).toNat = w.script_list_.current.toNat + 1 := by
                omega
              rw [this] at hs2
              rw [hs2] at hk'
              simp only [Option.map_some', Option.some.injEq] at hk'
              rw [← hk']
              exact hmem
            · omega
          · rename_i hnext
            split at hk'
            · rename_i hpos
              simp only [if_neg hnext, if_pos hpos] at hsigdef
              obtain ⟨s, hs⟩ := hsigdef _ rfl
              rcases hs with ⟨hs, hmem⟩ | hneg
              · have hc1 : 0 ≤ w.script_list_.current - 1 := by omega
                have hlt : (w.script_list_.current - 1).toNat < w.script_list_.current.toNat := by
                  omega
                simp only [idAt, hc1, if_true, List.getElem?_map, List.getElem?_eraseIdx,
                  hlt] at hk'
                rw [scriptAt_toNat hs] at hk'
                simp only [Option.map_some', Option.some.injEq] at hk'
                rw [← hk']
                exact hmem
              · omega
            · simp [idAt] at hk'
        · intro e he
          have he' : e ∈ w.recycled_editors ++ [w.editor_hash.value script.id] := hr e he
          rcases List.mem_append.mp he' with h1 | h1
          · exact hinv.recycled_not_null e h1
          · rw [List.mem_singleton] at h1
            rw [h1]
            exact value_ne_none_of_mem_keys _ _ hidkey
        · intro hf
          have hf' : w.editing_enabled = false := hf
          have := (hinv.disabled_empty hf').2
          rw [this] at hlen0
          exact absurd rfl hlen0
        · intro hf
          exact hinv.closed_disabled hf

/-! ## Ids stay pairwise distinct -/

theorem Fresh_of_same {w w1 : RGSS_MainWindow} (h : Fresh w) (hids : ids w1 = ids w)
    (hc : w1.archive_.id_counter = w.archive_.id_counter) : Fresh w1 := by
  unfold Fresh
  rw [hids, hc]
  exact h

theorem Fresh_of_empty {w : RGSS_MainWindow} (h : w.archive_.scripts = []) : Fresh w := by
  unfold Fresh ids
  rw [h]
  exact ⟨List.nodup_nil, fun k hk => absurd hk (List.not_mem_nil k)⟩

theorem renumber_ids (l : List Script) (start : Int) :
    ((renumber start l).map Script.id).Nodup ∧
      ∀ k ∈ (renumber start l).map Script.id, start ≤ k ∧ k < start + l.length := by
  induction l generalizing start with
  | nil => exact ⟨List.nodup_nil, fun k hk => absurd hk (List.not_mem_nil k)⟩
  | cons s rest ih =>
    obtain ⟨hnd, hrange⟩ := ih (start + 1)
    simp only [renumber, List.map_cons, List.nodup_cons, List.mem_cons, List.length_cons]
    refine ⟨⟨?_, hnd⟩, ?_⟩
    · intro hmem
      have := (hrange start hmem).1
      omega
    · rintro k (rfl | hk)
      · constructor <;> omega
      · have := hrange k hk
        push_cast
        constructor <;> omega

theorem scriptsOfTriples_ids (l : List (Int × QString × QString)) (start : Int) :
    ((scriptsOfTriples start l).map Script.id).Nodup ∧
      ∀ k ∈ (scriptsOfTriples start l).map Script.id, start ≤ k ∧ k < start + l.length := by
  induction l generalizing start with
  | nil => exact ⟨List.nodup_nil, fun k hk => absurd hk (List.not_mem_nil k)⟩
  | cons s rest ih =>
    obtain ⟨hnd, hrange⟩ := ih (start + 1)
    simp only [scriptsOfTriples, List.map_cons, List.nodup_cons, List.mem_cons,
      List.length_cons]
    refine ⟨⟨?_, hnd⟩, ?_⟩
    · intro hmem
      have := (hrange start hmem).1
      omega
    · rintro k (rfl | hk)
      · constructor <;> omega
      · have := hrange k hk
        push_cast
        constructor <;> omega

theorem currentRowChanged_archive {w w1 : RGSS_MainWindow} {sig : Option Int}
    (h : currentRowChanged w sig = some w1) : w1.archive_ = w.archive_ := by
  obtain ⟨hash, recycled, row, rfl, -, -⟩ := currentRowChanged_effect h
  rfl

theorem setupLoadedArchive_archive {w w1 : RGSS_MainWindow}
    (h : setupLoadedArchive w = some w1) : w1.archive_ = w.archive_ := by
  unfold setupLoadedArchive at h
  simp only at h
  split at h
  · exact absurd h (by simp)
  · rename_i wA hA
    split at h
    · exact absurd h (by simp)
    · rename_i wB hB
      simp only [Option.some.injEq] at h
      subst h
      show wB.archive_ = w.archive_
      have hb := currentRowChanged_archive hB
      have ha := currentRowChanged_archive hA
      rw [hb]
      exact ha

theorem storeChangedScripts_Fresh {w w1 : RGSS_MainWindow} (hf : Fresh w)
    (h : storeChangedScripts w = some w1) : Fresh w1 := by
  obtain ⟨hh, -, hc, -⟩ := storeChangedScripts_keeps h
  exact Fresh_of_same hf (ids_of_header hh) hc

theorem saveScriptArchiveAs_Fresh {env : Env} {file : QString} {w : RGSS_MainWindow}
    {r : Bool × RGSS_MainWindow} (hf : Fresh w)
    (h : saveScriptArchiveAs env file w = some r) : Fresh r.2 := by
  unfold saveScriptArchiveAs at h
  simp only at h
  split at h
  · simp only [Option.some.injEq] at h
    subst h
    exact Fresh_of_same hf rfl rfl
  · split at h
    · split at h
      · exact absurd h (by simp)
      · rename_i w1 hstore
        have h1 : Fresh w1 := storeChangedScripts_Fresh (by exact Fresh_of_same hf rfl rfl) hstore
        split at h
        · simp only [Option.some.injEq] at h
          subst h
          exact Fresh_of_same h1 rfl rfl
        · simp only [Option.some.injEq] at h
          subst h
          exact Fresh_of_same h1 rfl rfl
    · simp only [Option.some.injEq] at h
      subst h
      exact Fresh_of_same hf rfl rfl

theorem verifySaveDiscard_Fresh {env : Env} {w : RGSS_MainWindow}
    {r : Bool × RGSS_MainWindow} (hf : Fresh w)
    (h : verifySaveDiscard env w = some r) : Fresh r.2 := by
  unfold verifySaveDiscard at h
  split at h
  · split at h
    · exact saveScriptArchiveAs_Fresh hf h
    all_goals
      simp only [Option.some.injEq] at h
      subst h
      exact hf
  · simp only [Option.some.injEq] at h
    subst h
    exact hf

theorem onExportScripts_Fresh {env : Env} {w w1 : RGSS_MainWindow} (hf : Fresh w)
    (h : onExportScripts env w = some w1) : Fresh w1 := by
  unfold onExportScripts at h
  simp only at h
  split at h
  · simp only [Option.some.injEq] at h
    subst h
    exact hf
  · split at h
    · split at h
      · exact absurd h (by simp)
      · rename_i w2 hstore
        have h1 : Fresh w2 := storeChangedScripts_Fresh (by exact Fresh_of_same hf rfl rfl) hstore
        simp only [Option.some.injEq] at h
        subst h
        exact Fresh_of_same h1 rfl rfl
    · simp only [Option.some.injEq] at h
      subst h
      exact Fresh_of_same hf rfl rfl

theorem closeScriptArchive_Fresh {w w1 : RGSS_MainWindow}
    (h : closeScriptArchive w = some w1) : Fresh w1 := by
  rw [closeScriptArchive_eq, Option.some.injEq] at h
  subst h
  exact Fresh_of_empty rfl

theorem loadScriptArchive_Fresh {env : Env} {file : QString} {show_errors : Bool}
    {w w1 : RGSS_MainWindow} (hf : Fresh w)
    (h : loadScriptArchive env file show_errors w = some w1) : Fresh w1 := by
  unfold loadScriptArchive at h
  split at h
  · simp only [Option.some.injEq] at h
    subst h
    split
    · exact Fresh_of_same hf rfl rfl
    · exact hf
  · split at h
    · simp only [Option.some.injEq] at h
      subst h
      split
      · exact Fresh_of_same hf rfl rfl
      · exact hf
    · rename_i format triples _
      simp only at h
      split at h
      · exact absurd h (by simp)
      · rename_i w2 hsetup
        simp only [Option.some.injEq] at h
        subst h
        have ha := setupLoadedArchive_archive hsetup
        obtain ⟨hnd, hrange⟩ := scriptsOfTriples_ids triples 0
        unfold Fresh ids
        show (w2.archive_.scripts.map Script.id).Nodup ∧
          ∀ k ∈ w2.archive_.scripts.map Script.id, k < w2.archive_.id_counter
        rw [ha]
        refine ⟨hnd, fun k hk => ?_⟩
        have := (hrange k hk).2
        simpa [ScriptArchive.readResult] using this

theorem closeIfOpened_Fresh {w w2 : RGSS_MainWindow} (hf : Fresh w)
    (h : (if w.archive_opened then closeScriptArchive w else some w) = some w2) :
    Fresh w2 := by
  by_cases ho : w.archive_opened = true
  · simp only [ho, if_true] at h
    exact closeScriptArchive_Fresh h
  · have hof : w.archive_opened = false := by simpa using ho
    simp only [hof] at h
    simp only [Bool.false_eq_true, if_false, Option.some.injEq] at h
    subst h
    exact hf

theorem onArchiveDropped_Fresh {env : Env} {filename : QString} {w w1 : RGSS_MainWindow}
    (hf : Fresh w) (h : onArchiveDropped env filename w = some w1) : Fresh w1 := by
  unfold onArchiveDropped at h
  split at h
  · exact absurd h (by simp)
  · rename_i wv hv
    simp only [Option.some.injEq] at h
    subst h
    exact verifySaveDiscard_Fresh hf hv
  · rename_i wv hv
    have hv1 := verifySaveDiscard_Fresh hf hv
    split at h
    · exact absurd h (by simp)
    · rename_i w2 hc
      exact loadScriptArchive_Fresh (closeIfOpened_Fresh hv1 hc) h

theorem onOpenArchive_Fresh {env : Env} {w w1 : RGSS_MainWindow}
    (hf : Fresh w) (h : onOpenArchive env w = some w1) : Fresh w1 := by
  unfold onOpenArchive at h
  split at h
  · exact absurd h (by simp)
  · rename_i wv hv
    simp only [Option.some.injEq] at h
    subst h
    exact verifySaveDiscard_Fresh hf hv
  · rename_i wv hv
    have hv1 := verifySaveDiscard_Fresh hf hv
    split at h
    · simp only [Option.some.injEq] at h
      subst h
      exact hv1
    · split at h
      · exact absurd h (by simp)
      · rename_i w2 hc
        exact loadScriptArchive_Fresh (closeIfOpened_Fresh hv1 hc) h

theorem onCloseArchive_Fresh {env : Env} {w w1 : RGSS_MainWindow}
    (hf : Fresh w) (h : onCloseArchive env w = some w1) : Fresh w1 := by
  unfold onCloseArchive at h
  split at h
  · exact absurd h (by simp)
  · rename_i wv hv
    simp only [Option.some.injEq] at h
    subst h
    exact verifySaveDiscard_Fresh hf hv
  · exact closeScriptArchive_Fresh h

theorem onSaveArchiveAs_Fresh {env : Env} {w : RGSS_MainWindow} {r : Bool × RGSS_MainWindow}
    (hf : Fresh w) (h : onSaveArchiveAs env w = some r) : Fresh r.2 := by
  unfold onSaveArchiveAs at h
  split at h
  · simp only [Option.some.injEq] at h
    subst h
    exact hf
  · exact saveScriptArchiveAs_Fresh hf h

theorem onSaveArchive_Fresh {env : Env} {w w1 : RGSS_MainWindow}
    (hf : Fresh w) (h : onSaveArchive env w = some w1) : Fresh w1 := by
  unfold onSaveArchive at h
  split at h
  · obtain ⟨r, hr, rfl⟩ := Option.map_eq_some'.mp h
    exact onSaveArchiveAs_Fresh hf hr
  · obtain ⟨r, hr, rfl⟩ := Option.map_eq_some'.mp h
    exact saveScriptArchiveAs_Fresh hf hr

theorem onImportScripts_Fresh {env : Env} {w w1 : RGSS_MainWindow}
    (hf : Fresh w) (h : onImportScripts env w = some w1) : Fresh w1 := by
  unfold onImportScripts at h
  split at h
  · exact absurd h (by simp)
  · rename_i wv hv
    simp only [Option.some.injEq] at h
    subst h
    exact verifySaveDiscard_Fresh hf hv
  · rename_i wv hv
    have hv1 := verifySaveDiscard_Fresh hf hv
    simp only at h
    split at h
    · simp only [Option.some.injEq] at h
      subst h
      exact hv1
    · split at h
      · simp only [Option.some.injEq] at h
        subst h
        exact Fresh_of_same hv1 rfl rfl
      · split at h
        · simp only [Option.some.injEq] at h
          subst h
          exact Fresh_of_same hv1 rfl rfl
        · rename_i scripts _
          split at h
          · exact absurd h (by simp)
          · rename_i w2 hc
            split at h
            · exact absurd h (by simp)
            · rename_i w4 hsetup
              simp only [Option.some.injEq] at h
              subst h
              have ha := setupLoadedArchive_archive hsetup
              obtain ⟨hnd, hrange⟩ := renumber_ids scripts 0
              unfold Fresh ids
              show (w4.archive_.scripts.map Script.id).Nodup ∧
                ∀ k ∈ w4.archive_.scripts.map Script.id, k < w4.archive_.id_counter
              rw [ha]
              refine ⟨hnd, fun k hk => ?_⟩
              have := (hrange k hk).2
              simpa [ScriptArchive.rehashIDs] using this
theorem onInsertScript_Fresh {w w1 : RGSS_MainWindow} (hf : Fresh w)
    (h : onInsertScript w = some w1) : Fresh w1 := by
  unfold onInsertScript at h
  simp only at h
  split at h
  · exact absurd h (by simp)
  · rename_i wB hB
    simp only [Option.some.injEq] at h
    subst h
    have ha := currentRowChanged_archive hB
    obtain ⟨hnd, hlt⟩ := hf
    unfold Fresh ids
    show (wB.archive_.scripts.map Script.id).Nodup ∧
      ∀ k ∈ wB.archive_.scripts.map Script.id, k < wB.archive_.id_counter
    rw [ha]
    simp only [ScriptArchive.insertScript, List.map_append, List.map_cons]
    have hperm := @List.perm_middle Int w.archive_.id_counter
      ((w.archive_.scripts.take
        (clampIndex (max w.current_row_ 0) w.archive_.scripts.length)).map Script.id)
      ((w.archive_.scripts.drop
        (clampIndex (max w.current_row_ 0) w.archive_.scripts.length)).map Script.id)
    have hjoin : (w.archive_.scripts.take
          (clampIndex (max w.current_row_ 0) w.archive_.scripts.length)).map Script.id ++
        (w.archive_.scripts.drop
          (clampIndex (max w.current_row_ 0) w.archive_.scripts.length)).map Script.id =
        ids w := by
      rw [← List.map_append, List.take_append_drop]
      rfl
    rw [hjoin] at hperm
    constructor
    · rw [hperm.nodup_iff, List.nodup_cons]
      refine ⟨fun hmem => ?_, hnd⟩
      have := hlt _ hmem
      omega
    · intro k hk
      have hk2 := hperm.subset hk
      rcases List.mem_cons.mp hk2 with rfl | hk3
      · omega
      · have := hlt k hk3
        omega

theorem onDeleteScript_Fresh {w w1 : RGSS_MainWindow} (hf : Fresh w)
    (h : onDeleteScript w = some w1) : Fresh w1 := by
  unfold onDeleteScript at h
  split at h
  · simp only [Option.some.injEq] at h
    subst h
    exact hf
  · simp only at h
    split at h
    · exact absurd h (by simp)
    · split at h
      · exact absurd h (by simp)
      · rename_i w2 hslot
        simp only [Option.some.injEq] at h
        subst h
        have ha := currentRowChanged_archive hslot
        obtain ⟨hnd, hlt⟩ := hf
        have hsub : ((w.archive_.scripts.eraseIdx w.script_list_.current.toNat).map
            Script.id).Sublist (ids w) :=
          (List.eraseIdx_sublist _ _).map _
        unfold Fresh ids
        show ((w2.archive_.scripts.eraseIdx w.script_list_.current.toNat).map Script.id).Nodup ∧
          ∀ k ∈ (w2.archive_.scripts.eraseIdx w.script_list_.current.toNat).map Script.id,
            k < w2.archive_.id_counter
        rw [ha]
        exact ⟨hnd.sublist hsub, fun k hk => hlt k (hsub.subset hk)⟩

theorem selectRow_Fresh {row : Int} {w w1 : RGSS_MainWindow} (hf : Fresh w)
    (h : selectRow row w = some w1) : Fresh w1 := by
  unfold selectRow at h
  have ha := currentRowChanged_archive h
  exact Fresh_of_same hf (by unfold ids; rw [ha]) (by rw [ha])

theorem onScriptNameEdited_Fresh {name : QString} {w w1 : RGSS_MainWindow} (hf : Fresh w)
    (h : onScriptNameEdited name w = some w1) : Fresh w1 := by
  unfold onScriptNameEdited at h
  split at h
  · exact absurd h (by simp)
  · split at h
    · simp only [Option.some.injEq] at h
      subst h
      exact Fresh_of_same hf (by simp [ids, setDataModified, setNameAt_ids]) rfl
    · exact absurd h (by simp)

theorem editText_Fresh (key : Int) (text : QString) {w : RGSS_MainWindow} (hf : Fresh w) :
    Fresh (editText key text w) := by
  unfold editText
  cases w.editor_hash.value key with
  | none => exact hf
  | some e => exact Fresh_of_same hf rfl rfl

theorem construct_Fresh {env : Env} {path_to_load last_open_path : QString}
    {archive_opened : Bool} {f1 f2 : QString} {w : RGSS_MainWindow}
    (h : construct env path_to_load last_open_path (constructed archive_opened f1 f2) = some w) :
    Fresh w := by
  have h0 : Fresh (constructed archive_opened f1 f2) := Fresh_of_empty rfl
  unfold construct at h
  split at h
  · exact loadScriptArchive_Fresh h0 h
  · split at h
    · exact loadScriptArchive_Fresh h0 h
    · simp only [Option.some.injEq] at h
      subst h
      exact h0

theorem Step_Fresh {w w1 : RGSS_MainWindow} (hf : Fresh w) (hstep : Step w w1) : Fresh w1 := by
  cases hstep with
  | openArchive env _ _ h => exact onOpenArchive_Fresh hf h
  | archiveDropped env filename _ _ h => exact onArchiveDropped_Fresh hf h
  | saveArchive env _ _ h => exact onSaveArchive_Fresh hf h
  | saveArchiveAs env _ r h => exact onSaveArchiveAs_Fresh hf h
  | importScripts env _ _ h => exact onImportScripts_Fresh hf h
  | exportScripts env _ _ h => exact onExportScripts_Fresh hf h
  | closeArchive env _ _ h => exact onCloseArchive_Fresh hf h
  | closeRequested env _ r h => exact verifySaveDiscard_Fresh hf h
  | insertScript _ _ _ h => exact onInsertScript_Fresh hf h
  | deleteScript _ _ h => exact onDeleteScript_Fresh hf h
  | rowSelected row _ _ _ h => exact selectRow_Fresh hf h
  | nameEdited name _ _ _ h => exact onScriptNameEdited_Fresh hf h
  | textEdited key text _ => exact editText_Fresh key text hf
  | editorModified _ => exact Fresh_of_same hf rfl rfl

theorem Reachable_Fresh {w : RGSS_MainWindow} (h : Reachable w) : Fresh w := by
  induction h with
  | start env p l b f1 f2 w h => exact construct_Fresh h
  | step w w1 _ hstep ih => exact Step_Fresh ih hstep

theorem deleted_id_gone {w w1 : RGSS_MainWindow} {script : Script}
    (hinv : Inv w) (hf : Fresh w)
    (hs : scriptAt w.archive_.scripts w.script_list_.current = some script)
    (h : onDeleteScript w = some w1) : script.id ∉ w1.editor_hash.keys := by
  intro hk
  have hin := (onDeleteScript_Inv hinv h).keys_in_archive _ hk
  have hne : w.archive_.scripts.length ≠ 0 := by
    obtain ⟨h0, hlt⟩ := scriptAt_range hs
    omega
  unfold onDeleteScript at h
  simp only [hne, if_false, hs] at h
  split at h
  · exact absurd h (by simp)
  · rename_i w2 hslot
    simp only [Option.some.injEq] at h
    subst h
    have ha := currentRowChanged_archive hslot
    have hin2 : script.id ∈
        (w2.archive_.scripts.eraseIdx w.script_list_.current.toNat).map Script.id := hin
    rw [ha] at hin2
    obtain ⟨s, hsmem, hsid⟩ := List.mem_map.mp hin2
    obtain ⟨m, hm⟩ := List.mem_iff_getElem?.mp hsmem
    rw [List.getElem?_eraseIdx] at hm
    have hj := scriptAt_toNat hs
    have hnd := hf.1
    unfold ids at hnd
    have hinj : ∀ a b : Nat, w.archive_.scripts[a]? = some s →
        w.archive_.scripts[b]? = some script → a = b := by
      intro a b h1 h2
      have h1' : (w.archive_.scripts.map Script.id)[a]? = some s.id := by
        simp [List.getElem?_map, h1]
      have h2' : (w.archive_.scripts.map Script.id)[b]? = some s.id := by
        simp [List.getElem?_map, h2, hsid]
      have hla := (List.getElem?_eq_some_iff.mp h1').1
      have hlb := (List.getElem?_eq_some_iff.mp h2').1
      have e1 := (List.getElem?_eq_some_iff.mp h1').2
      have e2 := (List.getElem?_eq_some_iff.mp h2').2
      exact (List.Nodup.getElem_inj_iff hnd).mp (e1.trans e2.symm)
    split at hm
    · rename_i hlt
      have := hinj _ _ hm hj
      omega
    · rename_i hge
      have := hinj _ _ hm hj
      omega

/-! ## Reachable states satisfy the invariant -/

theorem Step_Inv {w w1 : RGSS_MainWindow} (hinv : Inv w) (hstep : Step w w1) : Inv w1 := by
  cases hstep with
  | openArchive env _ _ h => exact onOpenArchive_Inv hinv h
  | archiveDropped env filename _ _ h => exact onArchiveDropped_Inv hinv h
  | saveArchive env _ _ h => exact onSaveArchive_Inv hinv h
  | saveArchiveAs env _ r h => exact onSaveArchiveAs_Inv hinv h
  | importScripts env _ _ h => exact onImportScripts_Inv hinv h
  | exportScripts env _ _ h => exact onExportScripts_Inv hinv h
  | closeArchive env _ _ h => exact onCloseArchive_Inv hinv h
  | closeRequested env _ r h => exact verifySaveDiscard_Inv hinv h
  | insertScript _ _ hen h => exact onInsertScript_Inv hinv hen h
  | deleteScript _ _ h => exact onDeleteScript_Inv hinv h
  | rowSelected row _ _ hen h => exact selectRow_Inv hinv hen h
  | nameEdited name _ _ _ h => exact onScriptNameEdited_Inv hinv h
  | textEdited key text _ => exact editText_Inv key text hinv
  | editorModified _ =>
    exact Inv_of_same hinv rfl (fun _ => Iff.rfl) rfl (fun _ he => he) rfl rfl

theorem Reachable_Inv {w : RGSS_MainWindow} (h : Reachable w) : Inv w := by
  induction h with
  | start env p l b f1 f2 w h => exact construct_Inv h
  | step w w1 _ hstep ih => exact Step_Inv ih hstep

/-- C7: the assertion `Q_ASSERT(script)` of storeChangedScripts never fails.  In every
reachable state each key of the editor map is the id of an entry of the archive,
getScriptForID finds an entry for each key, and storeChangedScripts returns; after
closeScriptArchive the map and the entry list are both empty, a deletion leaves no key
without an entry, and the id of the deleted entry is no longer a key. -/
theorem storeChangedScripts_assertion_holds (w : RGSS_MainWindow) (hreach : Reachable w) :
    (∀ k ∈ w.editor_hash.keys, ∃ s ∈ w.archive_.scripts, s.id = k) ∧
      (∀ k ∈ w.editor_hash.keys, (w.archive_.getScriptForID k).isSome = true) ∧
      (∃ w1, storeChangedScripts w = some w1) ∧
      (∀ w1, closeScriptArchive w = some w1 →
        w1.editor_hash.keys = [] ∧ w1.archive_.scripts = []) ∧
      (∀ w1, onDeleteScript w = some w1 →
        ∀ k ∈ w1.editor_hash.keys, ∃ s ∈ w1.archive_.scripts, s.id = k) ∧
      (∀ w1 script, scriptAt w.archive_.scripts w.script_list_.current = some script →
        onDeleteScript w = some w1 → script.id ∉ w1.editor_hash.keys) := by
  have hinv := Reachable_Inv hreach
  have hkeys : ∀ k ∈ w.editor_hash.keys, ∃ s ∈ w.archive_.scripts, s.id = k := by
    intro k hk
    obtain ⟨s, hs, hsk⟩ := List.mem_map.mp (hinv.keys_in_archive k hk)
    exact ⟨s, hs, hsk⟩
  refine ⟨hkeys, ?_, storeChangedScripts_total w hkeys, ?_, ?_,
    fun w1 script hs h1 => deleted_id_gone hinv (Reachable_Fresh hreach) hs h1⟩
  · intro k hk
    obtain ⟨p, hp⟩ := findID_of_mem k w.archive_.scripts (hkeys k hk)
    simp [ScriptArchive.getScriptForID, hp]
  · intro w1 h1
    rw [closeScriptArchive_eq, Option.some.injEq] at h1
    subst h1
    exact ⟨rfl, rfl⟩
  · intro w1 h1 k hk
    obtain ⟨s, hs, hsk⟩ := List.mem_map.mp ((onDeleteScript_Inv hinv h1).keys_in_archive k hk)
    exact ⟨s, hs, hsk⟩

theorem loadedWindow_reachable : Reachable loadedWindow :=
  Reachable.start sampleEnv "/dir/Scripts.rxdata" "" false "/dir" "" loadedWindow (by decide)

theorem editedWindow_reachable : Reachable editedWindow :=
  Reachable.step _ _ loadedWindow_reachable (Step.textEdited 0 "puts 2" loadedWindow)

theorem storeChangedScripts_assertion_holds_witness :
    ∃ w1, storeChangedScripts editedWindow = some w1 :=
  (storeChangedScripts_assertion_holds editedWindow editedWindow_reachable).2.2.1

/-! ## The save/discard guard and the stale row -/

theorem handlers_stop_when_refused {env : Env} {w w1 : RGSS_MainWindow} (filename : QString)
    (h : verifySaveDiscard env w = some (false, w1)) :
    onOpenArchive env w = some w1 ∧ onArchiveDropped env filename w = some w1 ∧
      onImportScripts env w = some w1 ∧ onCloseArchive env w = some w1 ∧
      closeEvent env w = some (false, w1) := by
  refine ⟨?_, ?_, ?_, ?_, h⟩
  · simp only [onOpenArchive, h]
  · simp only [onArchiveDropped, h]
  · simp only [onImportScripts, h]
  · simp only [onCloseArchive, h]

theorem verifySaveDiscard_refused {env : Env} {w : RGSS_MainWindow}
    (hmod : w.data_modified_ = true) (hnot : env.saveDiscard ≠ DialogResult.Discard)
    (hns : env.saveDiscard ≠ DialogResult.Save) :
    verifySaveDiscard env w = some (false, w) := by
  unfold verifySaveDiscard
  simp only [hmod, if_true]
  cases h : env.saveDiscard with
  | Save => exact absurd h hns
  | Discard => exact absurd h hnot
  | Cancel => rfl
  | Other => rfl

/-- C9 (amended): unsaved modifications are not discarded without the user's choice.  In
a reachable state with data_modified_ set, when the answer is not Discard and not a Save
whose saveScriptArchiveAs(open_path) returns true, each of onOpenArchive, onArchiveDropped,
onImportScripts and onCloseArchive returns the window exactly as verifySaveDiscard left
it, and closeEvent does not accept.  In that window open_path and data_modified_ are
unchanged, every entry keeps its position, id, magic and name, and the editor map keeps
its keys.  The archive and the editor map are unchanged altogether unless the answer was
Save and the file was opened, in which case they are those produced by
storeChangedScripts. -/
theorem unsaved_changes_guarded (env : Env) (filename : QString) (w : RGSS_MainWindow)
    (hreach : Reachable w)
    (hmod : w.data_modified_ = true)
    (hnot : env.saveDiscard ≠ DialogResult.Discard)
    (hsave : env.saveDiscard = DialogResult.Save →
      ∀ w2, saveScriptArchiveAs env w.open_path w ≠ some (true, w2)) :
    ∃ w1, verifySaveDiscard env w = some (false, w1) ∧
      onOpenArchive env w = some w1 ∧ onArchiveDropped env filename w = some w1 ∧
      onImportScripts env w = some w1 ∧ onCloseArchive env w = some w1 ∧
      closeEvent env w = some (false, w1) ∧
      w1.open_path = w.open_path ∧ w1.data_modified_ = true ∧
      w1.archive_.scripts.map scriptHeader = w.archive_.scripts.map scriptHeader ∧
      w1.editor_hash.keys = w.editor_hash.keys ∧
      ((w1.archive_ = w.archive_ ∧ w1.editor_hash = w.editor_hash) ∨
        (env.saveDiscard = DialogResult.Save ∧ env.openWrite w.open_path = true ∧
          ∃ wm, storeChangedScripts w = some wm ∧
            w1.archive_ = wm.archive_ ∧ w1.editor_hash = wm.editor_hash)) ∧
      ((env.saveDiscard ≠ DialogResult.Save ∨ env.openWrite w.open_path = false ∨
          (suffix w.open_path ≠ "rxdata" ∧ suffix w.open_path ≠ "rvdata" ∧
            suffix w.open_path ≠ "rvdata2")) →
        w1.archive_ = w.archive_ ∧ w1.editor_hash = w.editor_hash) := by
  have hinv := Reachable_Inv hreach
  have hkeys : ∀ k ∈ w.editor_hash.keys, ∃ s ∈ w.archive_.scripts, s.id = k := by
    intro k hk
    obtain ⟨s, hs, hsk⟩ := List.mem_map.mp (hinv.keys_in_archive k hk)
    exact ⟨s, hs, hsk⟩
  have hunchanged : ∀ log : List Event,
      verifySaveDiscard env w = some (false, { w with log := log }) →
      ∃ w1, verifySaveDiscard env w = some (false, w1) ∧
      onOpenArchive env w = some w1 ∧ onArchiveDropped env filename w = some w1 ∧
      onImportScripts env w = some w1 ∧ onCloseArchive env w = some w1 ∧
      closeEvent env w = some (false, w1) ∧
      w1.open_path = w.open_path ∧ w1.data_modified_ = true ∧
      w1.archive_.scripts.map scriptHeader = w.archive_.scripts.map scriptHeader ∧
      w1.editor_hash.keys = w.editor_hash.keys ∧
      ((w1.archive_ = w.archive_ ∧ w1.editor_hash = w.editor_hash) ∨
        (env.saveDiscard = DialogResult.Save ∧ env.openWrite w.open_path = true ∧
          ∃ wm, storeChangedScripts w = some wm ∧
            w1.archive_ = wm.archive_ ∧ w1.editor_hash = wm.editor_hash)) ∧
      ((env.saveDiscard ≠ DialogResult.Save ∨ env.openWrite w.open_path = false ∨
          (suffix w.open_path ≠ "rxdata" ∧ suffix w.open_path ≠ "rvdata" ∧
            suffix w.open_path ≠ "rvdata2")) →
        w1.archive_ = w.archive_ ∧ w1.editor_hash = w.editor_hash) := by
    intro log hv
    obtain ⟨h1, h2, h3, h4, h5⟩ := handlers_stop_when_refused filename hv
    exact ⟨_, hv, h1, h2, h3, h4, h5, rfl, hmod, rfl, rfl, Or.inl ⟨rfl, rfl⟩,
      fun _ => ⟨rfl, rfl⟩⟩
  by_cases hans : env.saveDiscard = DialogResult.Save
  swap
  · have hv : verifySaveDiscard env w = some (false, w) :=
      verifySaveDiscard_refused hmod hnot hans
    exact hunchanged w.log hv
  · have hv : verifySaveDiscard env w = saveScriptArchiveAs env w.open_path w := by
      unfold verifySaveDiscard
      simp only [hmod, hans, if_true]
    have hsave' := hsave hans
    by_cases hfmt : suffix w.open_path ≠ "rxdata" ∧ suffix w.open_path ≠ "rvdata" ∧
        suffix w.open_path ≠ "rvdata2"
    · apply hunchanged (w.log ++ [Event.critical "File saving error."
        ("Unrecognized file extension: " ++ suffix w.open_path)])
      rw [hv]
      exact (saveScriptArchiveAs_cases env w.open_path w).2 hfmt.1 hfmt.2.1 hfmt.2.2
    · obtain ⟨F, hF⟩ : ∃ F : Format,
          ((suffix w.open_path = "rxdata" ∨ suffix w.open_path = "rvdata") ∧ F = Format.XP) ∨
            (suffix w.open_path = "rvdata2" ∧ F = Format.VXAce) := by
        by_cases h1 : suffix w.open_path = "rxdata"
        · exact ⟨Format.XP, Or.inl ⟨Or.inl h1, rfl⟩⟩
        · by_cases h2 : suffix w.open_path = "rvdata"
          · exact ⟨Format.XP, Or.inl ⟨Or.inr h2, rfl⟩⟩
          · by_cases h3 : suffix w.open_path = "rvdata2"
            · exact ⟨Format.VXAce, Or.inr ⟨h3, rfl⟩⟩
            · exact absurd ⟨h1, h2, h3⟩ hfmt
      by_cases hopen : env.openWrite w.open_path = true
      · obtain ⟨wm, hwm⟩ := storeChangedScripts_total w hkeys
        have hwm' : storeChangedScripts
            { w with log := w.log ++ [Event.opened w.open_path] } =
            some { wm with log := w.log ++ [Event.opened w.open_path] } := by
          rw [storeChangedScripts_log, hwm]
          rfl
        obtain ⟨w2, hs2, hlog2⟩ :=
          (saveScriptArchiveAs_cases env w.open_path w).1 F hF hopen _ hwm'
        have hfalse : env.archiveWrite F wm.archive_ = false := by
          cases hb : env.archiveWrite F wm.archive_ with
          | false => rfl
          | true =>
            simp only [hb] at hs2
            exact absurd hs2 (hsave' w2)
        simp only [hfalse] at hs2
        have hv2 : verifySaveDiscard env w = some (false, w2) := by rw [hv, hs2]
        obtain ⟨h1, h2, h3, h4, h5⟩ := handlers_stop_when_refused filename hv2
        have hw2 : w2 = ({ wm with log := (w.log ++ [Event.opened w.open_path]) ++
            [Event.archiveWrite w.open_path F wm.archive_] }).critical "File saving error."
              ("Cannot save: " ++ w.open_path) := by
          have hdef := hs2
          unfold saveScriptArchiveAs at hdef
          have hfmt2 : (if suffix w.open_path = "rxdata" then some Format.XP
              else if suffix w.open_path = "rvdata" then some Format.XP
              else if suffix w.open_path = "rvdata2" then some Format.VXAce
              else none) = some F := by
            rcases hF with ⟨h | h, rfl⟩ | ⟨h, rfl⟩
            · simp [h]
            · simp [h]
            · rw [h]; decide
          simp only [hfmt2, hopen, if_true, hwm', hfalse] at hdef
          simp only [Bool.false_eq_true, if_false, Option.some.injEq, Prod.mk.injEq,
            true_and] at hdef
          exact hdef.symm
        obtain ⟨hh, -, -, hk⟩ := storeChangedScripts_keeps hwm
        have hframe := storeChangedScripts_frame hwm
        refine ⟨w2, hv2, h1, h2, h3, h4, h5, ?_, ?_, ?_, ?_, ?_, ?_⟩
        · rw [hw2]
          show wm.open_path = w.open_path
          rw [hframe]
        · rw [hw2]
          show wm.data_modified_ = true
          rw [hframe]
          exact hmod
        · rw [hw2]
          exact hh
        · rw [hw2]
          exact hk
        · right
          refine ⟨hans, hopen, wm, hwm, ?_, ?_⟩ <;> rw [hw2] <;> rfl
        · rintro (h | h | h)
          · exact absurd hans h
          · rw [hopen] at h
            exact absurd h (by simp)
          · exact absurd h hfmt
      · have hopenf : env.openWrite w.open_path = false := by simpa using hopen
        apply hunchanged (w.log ++ [Event.critical "File saving error."
          ("Cannot open for writing: " ++ w.open_path)])
        rw [hv]
        unfold saveScriptArchiveAs
        have hfmt2 : (if suffix w.open_path = "rxdata" then some Format.XP
            else if suffix w.open_path = "rvdata" then some Format.XP
            else if suffix w.open_path = "rvdata2" then some Format.VXAce
            else none) = some F := by
          rcases hF with ⟨h | h, rfl⟩ | ⟨h, rfl⟩
          · simp [h]
          · simp [h]
          · rw [h]; decide
        simp only [hfmt2, hopenf]
        rfl

theorem unsaved_changes_guarded_witness :
    editedWindow.data_modified_ = true ∧
      failingWriteEnv.saveDiscard ≠ DialogResult.Discard ∧
      ∃ w1, onCloseArchive failingWriteEnv editedWindow = some w1 ∧
        closeEvent failingWriteEnv editedWindow = some (false, w1) ∧
        w1.open_path = "/dir/Scripts.rxdata" ∧ w1.data_modified_ = true := by
  obtain ⟨w1, -, -, -, -, h4, h5, h6, h7, -⟩ :=
    unsaved_changes_guarded failingWriteEnv "/dir/Other.rxdata" editedWindow
      editedWindow_reachable (by decide) (by decide)
      (fun _ w2 h => by
        have hs : (saveScriptArchiveAs failingWriteEnv editedWindow.open_path
            editedWindow).map Prod.fst = some false := by decide
        rw [h] at hs
        exact absurd hs (by simp))
  exact ⟨by decide, by decide, w1, h4, h5, h6, h7⟩

/-- C9 as stated fails when the save fails inside ScriptArchive::write: the window is
modified, the answer is Save, saveScriptArchiveAs returns false, the archive is not closed,
yet the entries and the editor map are not what they were, because storeChangedScripts ran
before write. -/
theorem unsaved_changes_guarded_counterexample :
    Reachable editedWindow ∧ editedWindow.data_modified_ = true ∧
      failingWriteEnv.saveDiscard = DialogResult.Save ∧
      (saveScriptArchiveAs failingWriteEnv editedWindow.open_path editedWindow).map Prod.fst =
        some false ∧
      ∃ w1, onCloseArchive failingWriteEnv editedWindow = some w1 ∧
        w1.archive_.scripts ≠ editedWindow.archive_.scripts ∧
        w1.editor_hash ≠ editedWindow.editor_hash := by
  refine ⟨editedWindow_reachable, by decide, by decide, by decide, _, rfl, ?_, ?_⟩ <;> decide

/-- C8: deleting the first of two rows leaves current_row_ at 1 while the list widget
reports row 0 as current and the archive holds a single entry, so the assertion of
onScriptNameEdited is false in a reachable state and the rename indexes the entry list out
of range. -/
theorem onDeleteScript_breaks_row_assertion :
    ∃ w, onDeleteScript loadedWindow = some w ∧ Reachable w ∧
      w.current_row_ = 1 ∧ w.script_list_.current = 0 ∧ w.archive_.scripts.length = 1 ∧
      ¬ nameEditAssertion w ∧ onScriptNameEdited "Renamed" w = none := by
  refine ⟨_, rfl, ?_, ?_, ?_, ?_, ?_, ?_⟩
  · exact Reachable.step _ _ loadedWindow_reachable (Step.deleteScript _ _ rfl)
  all_goals decide

/-! ## Import -/

theorem importLoop_fails (env : Env) (folder : QString) (lines : List QString) (k : Nat)
    (h : ∃ i, i < lines.length ∧ env.openRead (folder ++ "/" ++ scFilename (k + i)) = none) :
    ∃ title text, importLoop env folder k lines = Except.error (Event.critical title text) := by
  induction lines generalizing k with
  | nil =>
    obtain ⟨i, hi, _⟩ := h
    simp at hi
  | cons name rest ih =>
    cases hopen : env.openRead (folder ++ "/" ++ scFilename k) with
    | none => exact ⟨_, _, by simp only [importLoop, hopen]; rfl⟩
    | some bytes =>
      have hrest : ∃ i, i < rest.length ∧
          env.openRead (folder ++ "/" ++ scFilename (k + 1 + i)) = none := by
        obtain ⟨i, hi, hnone⟩ := h
        cases i with
        | zero =>
          simp only [Nat.add_zero] at hnone
          rw [hopen] at hnone
          exact absurd hnone (by simp)
        | succ j =>
          refine ⟨j, by simpa using hi, ?_⟩
          rw [show k + 1 + j = k + (j + 1) by omega]
          exact hnone
      obtain ⟨title, text, hr⟩ := ih (k + 1) hrest
      exact ⟨title, text, by simp only [importLoop, hopen, hr]⟩

theorem importLoop_succeeds (env : Env) (folder : QString) (lines : List QString) (k : Nat)
    (h : ∀ i, i < lines.length →
      ∃ bytes, env.openRead (folder ++ "/" ++ scFilename (k + i)) = some bytes) :
    ∃ scripts, importLoop env folder k lines = Except.ok scripts ∧
      scripts.length = lines.length ∧
      ∀ (i : Nat) (name : QString), lines[i]? = some name →
        ∃ bytes, env.openRead (folder ++ "/" ++ scFilename (k + i)) = some bytes ∧
          scripts[i]? = some { magic := 0, name := name, data := env.fromByteArray bytes,
                               id := ((k + i : Nat) : Int) } := by
  induction lines generalizing k with
  | nil => exact ⟨[], rfl, rfl, fun i name hi => by simp at hi⟩
  | cons line rest ih =>
    obtain ⟨bytes, hopen⟩ := h 0 (by simp)
    simp only [Nat.add_zero] at hopen
    obtain ⟨scripts, hr, hlen, hall⟩ := ih (k + 1) (fun i hi => by
      have := h (i + 1) (by simpa using hi)
      rwa [show k + 1 + i = k + (i + 1) by omega])
    refine ⟨{ magic := 0, name := line, data := env.fromByteArray bytes, id := (k : Int) } ::
      scripts, by simp only [importLoop, hopen, hr], by simp [hlen], ?_⟩
    intro i name hi
    cases i with
    | zero =>
      simp only [List.getElem?_cons_zero, Option.some.injEq] at hi
      subst hi
      exact ⟨bytes, hopen, by simp⟩
    | succ j =>
      simp only [List.getElem?_cons_succ] at hi
      obtain ⟨b, hb, hs⟩ := hall j name hi
      refine ⟨b, by rw [show k + (j + 1) = k + 1 + j by omega]; exact hb, ?_⟩
      simp only [List.getElem?_cons_succ, hs]
      rw [show k + (j + 1) = k + 1 + j by omega]

/-- C10: a failed import is atomic.  Once the save/discard question has let the import
start, leaving the window `w1` (which is the window `w` itself unless the user chose Save),
an index file that cannot be opened, or a data file of some index line that cannot be
opened, makes onImportScripts return `w1` with one more message box and nothing else:
the entry list, the editor map, open_path, data_modified_ and the list widget are those of
`w1`. -/
theorem onImportScripts_failure_atomic (env : Env) (w w1 : RGSS_MainWindow)
    (hverify : verifySaveDiscard env w = some (true, w1))
    (hdir : env.existingDirectory ≠ "")
    (hfail : env.openRead (env.existingDirectory ++ "/index") = none ∨
      ∃ indBytes i, env.openRead (env.existingDirectory ++ "/index") = some indBytes ∧
        i < (readLines (env.decodeText indBytes)).length ∧
        env.openRead (env.existingDirectory ++ "/" ++ scFilename i) = none) :
    (∃ title text, onImportScripts env w = some (w1.critical title text)) ∧
      (∀ w2, onImportScripts env w = some w2 →
        w2.archive_ = w1.archive_ ∧ w2.editor_hash = w1.editor_hash ∧
        w2.open_path = w1.open_path ∧ w2.data_modified_ = w1.data_modified_ ∧
        w2.script_list_ = w1.script_list_ ∧ w2.recycled_editors = w1.recycled_editors ∧
        w2.current_row_ = w1.current_row_ ∧ w2.archive_opened = w1.archive_opened) ∧
      ((w.data_modified_ = false ∨ env.saveDiscard = DialogResult.Discard) → w1 = w) := by
  have hres : ∃ title text, onImportScripts env w = some (w1.critical title text) := by
    rcases hfail with hnone | ⟨indBytes, i, hsome, hi, hnone⟩
    · exact ⟨_, _, by simp only [onImportScripts, hverify, hdir, if_false, hnone]; rfl⟩
    · obtain ⟨title, text, hloop⟩ := importLoop_fails env env.existingDirectory
        (readLines (env.decodeText indBytes)) 0 ⟨i, hi, by simpa using hnone⟩
      exact ⟨title, text, by
        simp only [onImportScripts, hverify, hdir, if_false, hsome, hloop]
        rfl⟩
  refine ⟨hres, ?_, ?_⟩
  · obtain ⟨title, text, h⟩ := hres
    intro w2 h2
    rw [h, Option.some.injEq] at h2
    subst h2
    exact ⟨rfl, rfl, rfl, rfl, rfl, rfl, rfl, rfl⟩
  · intro hcase
    unfold verifySaveDiscard at hverify
    rcases hcase with hm | hd
    · simp only [hm] at hverify
      simp only [Bool.false_eq_true, if_false, Option.some.injEq, Prod.mk.injEq, true_and]
        at hverify
      exact hverify.symm
    · by_cases hm : w.data_modified_ = true
      · simp only [hm, if_true, hd, Option.some.injEq, Prod.mk.injEq, true_and] at hverify
        exact hverify.symm
      · have hmf : w.data_modified_ = false := by simpa using hm
        simp only [hmf] at hverify
        simp only [Bool.false_eq_true, if_false, Option.some.injEq, Prod.mk.injEq, true_and]
          at hverify
        exact hverify.symm

theorem onImportScripts_failure_atomic_witness :
    ∃ title text, onImportScripts missingFileEnv loadedWindow =
      some (loadedWindow.critical title text) :=
  (onImportScripts_failure_atomic missingFileEnv loadedWindow loadedWindow (by decide)
    (by decide) (Or.inr ⟨[73], 1, by decide, by decide, by decide⟩)).1
theorem renumber_getElem? (l : List Script) (start : Int) (i : Nat) :
    (renumber start l)[i]? = (l[i]?).map (fun s => { s with id := start + i }) := by
  induction l generalizing start i with
  | nil => simp [renumber]
  | cons s rest ih =>
    cases i with
    | zero => simp [renumber]
    | succ j =>
      simp only [renumber, List.getElem?_cons_succ, ih]
      have : start + 1 + (j : Int) = start + ((j + 1 : Nat) : Int) := by omega
      simp [this]

theorem onScriptIndexChange_total (w : RGSS_MainWindow) (idx : Int)
    (hrec : ∀ e ∈ w.recycled_editors, e ≠ none)
    (hidx : idx = -1 ∨ (0 ≤ idx ∧ idx < w.archive_.scripts.length)) :
    ∃ w1, onScriptIndexChange w idx = some w1 := by
  unfold onScriptIndexChange
  by_cases hi : idx = -1
  · exact ⟨_, by simp only [hi, if_true]; rfl⟩
  · rcases hidx with h | ⟨h0, hlt⟩
    · exact absurd h hi
    · have hs : ∃ s, scriptAt w.archive_.scripts idx = some s := by
        unfold scriptAt
        simp only [h0, if_true]
        have : idx.toNat < w.archive_.scripts.length := by omega
        exact ⟨w.archive_.scripts[idx.toNat], List.getElem?_eq_getElem this⟩
      obtain ⟨s, hs⟩ := hs
      obtain ⟨w1, hw1⟩ := getEditorForScript_total w s hrec
      exact ⟨{ w1 with current_row_ := idx }, by simp only [hi, if_false, hs, hw1]⟩

theorem setupLoadedArchive_total (w : RGSS_MainWindow)
    (hrec : ∀ e ∈ w.recycled_editors, e ≠ none) :
    ∃ w1, setupLoadedArchive w = some w1 := by
  unfold setupLoadedArchive
  simp only
  have hA : ∃ wA, currentRowChanged { w with script_list_ := w.script_list_.clear.1 }
      w.script_list_.clear.2 = some wA := by
    simp only [QListWidget.clear]
    split
    · exact ⟨_, rfl⟩
    · exact onScriptIndexChange_total _ _ hrec (Or.inl rfl)
  obtain ⟨wA, hA⟩ := hA
  obtain ⟨hash, recycled, row, hwA, hr, -⟩ := currentRowChanged_effect hA
  have hrecA : ∀ e ∈ wA.recycled_editors, e ≠ none := by
    intro e he
    rw [hwA] at he
    exact hrec e (hr e he)
  have harch : wA.archive_ = w.archive_ := by rw [hwA]
  have hlist : wA.script_list_ = { items := [], current := -1 } := by rw [hwA]; rfl
  simp only [hA]
  have hB : ∃ wB, currentRowChanged
      { wA with script_list_ :=
          ((wA.archive_.scripts.foldl (fun l s => l.addItem s.name) wA.script_list_).setCurrentRow
            (max (min w.current_row_ ((w.archive_.scripts.length : Int) - 1)) 0)).1 }
      ((wA.archive_.scripts.foldl (fun l s => l.addItem s.name) wA.script_list_).setCurrentRow
        (max (min w.current_row_ ((w.archive_.scripts.length : Int) - 1)) 0)).2 = some wB := by
    rw [foldl_addItem, hlist]
    generalize (max (min w.current_row_ ((w.archive_.scripts.length : Int) - 1)) 0) = next_row
    unfold QListWidget.setCurrentRow
    simp only [List.nil_append, List.length_map]
    by_cases hv : 0 ≤ next_row ∧ next_row < (wA.archive_.scripts.length : Int)
    · simp only [hv, and_self, if_true]
      have hne : ¬ next_row = -1 := by omega
      simp only [hne, if_false]
      exact onScriptIndexChange_total _ _ hrecA (Or.inr hv)
    · simp only [hv, if_false, if_true]
      exact ⟨_, rfl⟩
  obtain ⟨wB, hB⟩ := hB
  exact ⟨_, by simp only [hB]; rfl⟩

/-- C3: a successful import builds the archive from the directory layout.  In a reachable
state, once the save/discard question has let the import start, an index with n lines
whose data files for the indices 0..n-1 can all be opened gives an archive of exactly n
entries: entry i has the name of line i, the contents of the file named by the zero-padded
index of i as data, magic 0 and id i. -/
theorem onImportScripts_builds_archive (env : Env) (w w1 : RGSS_MainWindow)
    (indBytes : QByteArray)
    (hreach : Reachable w)
    (hverify : verifySaveDiscard env w = some (true, w1))
    (hdir : env.existingDirectory ≠ "")
    (hindex : env.openRead (env.existingDirectory ++ "/index") = some indBytes)
    (hfiles : ∀ i, i < (readLines (env.decodeText indBytes)).length →
      ∃ bytes, env.openRead (env.existingDirectory ++ "/" ++ scFilename i) = some bytes) :
    ∃ w2, onImportScripts env w = some w2 ∧
      w2.archive_.scripts.length = (readLines (env.decodeText indBytes)).length ∧
      ∀ (i : Nat) (name : QString), (readLines (env.decodeText indBytes))[i]? = some name →
        ∃ bytes, env.openRead (env.existingDirectory ++ "/" ++ scFilename i) = some bytes ∧
          w2.archive_.scripts[i]? =
            some { magic := 0, name := name, data := env.fromByteArray bytes, id := (i : Int) } := by
  have hinv1 : Inv w1 := verifySaveDiscard_Inv (Reachable_Inv hreach) hverify
  obtain ⟨scripts, hloop, hlen, hall⟩ := importLoop_succeeds env env.existingDirectory
    (readLines (env.decodeText indBytes)) 0 (fun i hi => by simpa using hfiles i hi)
  have hclose := closeScriptArchive_eq w1
  obtain ⟨hinv2, -⟩ := closeScriptArchive_Inv hinv1 hclose
  obtain ⟨w4, hsetup⟩ := setupLoadedArchive_total
    { ({ w1 with
        recycled_editors :=
          w1.recycled_editors ++ w1.editor_hash.entries.map (fun e => some e.2),
        editor_hash := QHash.empty,
        open_path := "",
        archive_ := { w1.archive_ with scripts := [] },
        current_row_ := -1,
        script_list_ := { items := [], current := -1 },
        editing_enabled := false,
        archive_opened := false,
        data_modified_ := false } : RGSS_MainWindow) with
      archive_ := ({ w1.archive_ with scripts := scripts }).rehashIDs, open_path := "" }
    hinv2.recycled_not_null
  obtain ⟨-, harch⟩ := setupLoadedArchive_Inv (by exact rfl)
    (by exact hinv2.recycled_not_null) hsetup
  refine ⟨{ w4.setDataModified true with
      last_valid_folder_impexp := env.absolutePath env.existingDirectory }, ?_, ?_, ?_⟩
  · simp only [onImportScripts, hverify, hdir, if_false, hindex, hloop, hclose]
    simp only [ScriptArchive.rehashIDs] at hsetup ⊢
    rw [hsetup]
  · show w4.archive_.scripts.length = _
    rw [harch]
    simp [ScriptArchive.rehashIDs, renumber_length, hlen]
  · intro i name hi
    obtain ⟨bytes, hb, hs⟩ := hall i name hi
    simp only [Nat.zero_add] at hb hs
    refine ⟨bytes, hb, ?_⟩
    show w4.archive_.scripts[i]? = _
    rw [harch]
    simp [ScriptArchive.rehashIDs, renumber_getElem?, hs]

theorem onImportScripts_builds_archive_witness :
    ∃ w2, onImportScripts { sampleEnv with existingDirectory := "/imp" } loadedWindow =
        some w2 ∧
      w2.archive_.scripts =
        [{ magic := 0, name := "Intro", data := "P0", id := 0 },
         { magic := 0, name := "Battle", data := "P1", id := 1 }] := by
  obtain ⟨w2, h, -, -⟩ := onImportScripts_builds_archive
    { sampleEnv with existingDirectory := "/imp" } loadedWindow loadedWindow [73]
    loadedWindow_reachable (by decide) (by decide) (by decide)
    (fun i hi => by
      have hi2 : i < 2 := hi
      interval_cases i
      · exact ⟨[80, 48], by decide⟩
      · exact ⟨[80, 49], by decide⟩)
  refine ⟨w2, h, ?_⟩
  have hev : (onImportScripts { sampleEnv with existingDirectory := "/imp" }
      loadedWindow).map (fun x => x.archive_.scripts) =
      some [{ magic := 0, name := "Intro", data := "P0", id := 0 },
            { magic := 0, name := "Battle", data := "P1", id := 1 }] := by decide
  rw [h] at hev
  simpa using hev

end RGSS_MainWindow

end RGSS
